import Mathlib

/-!
Verification development for the request canonicalization and signing core of
the `mws-typescript` client (`src/amazon/api.ts`).

The TypeScript source is shallowly embedded: JavaScript strings are Lean
`String`s (sequences of Unicode scalar values), JavaScript objects built by
successive property assignment are association lists with
update-in-place-or-append semantics, index-based loops become structural
recursion, and the external collaborators (the HMAC-SHA256 primitive of
`crypto`, the XML parser of `xml2js`, and the network layer of `request`)
are passed in as explicit function arguments or data.
-/

namespace Mws

/-! ### Percent encoding (`Request.urlEncode`, api.ts lines 192-200)

`urlEncode` first applies JavaScript's `encodeURIComponent` and then
replaces every occurrence of the five characters `* ( ) ' !` by their
percent-encoded forms.  `encodeURIComponent` leaves the characters
`A-Z a-z 0-9 - _ . ! ~ * ' ( )` as they are and replaces every other
character by the `%XX` (uppercase hex) rendering of each byte of its
UTF-8 encoding. -/

/-- Uppercase hexadecimal digit for `n % 16`; `encodeURIComponent` emits
uppercase hex in its escapes. -/
def hexUpperChar (n : Nat) : Char :=
  "0123456789ABCDEF".data.getD (n % 16) '0'

/-- The UTF-8 encoding of a Unicode scalar value, as a list of byte values. -/
def utf8Bytes (c : Char) : List Nat :=
  let n := c.toNat
  if n < 0x80 then [n]
  else if n < 0x800 then [0xC0 + n / 64, 0x80 + n % 64]
  else if n < 0x10000 then [0xE0 + n / 4096, 0x80 + n / 64 % 64, 0x80 + n % 64]
  else [0xF0 + n / 262144, 0x80 + n / 4096 % 64, 0x80 + n / 64 % 64, 0x80 + n % 64]

/-- The `%XX` escape of one byte (uppercase hex), as a list of characters. -/
def percentByte (b : Nat) : List Char :=
  ['%', hexUpperChar (b / 16), hexUpperChar (b % 16)]

/-- The characters `encodeURIComponent` leaves unescaped:
`A-Z a-z 0-9 - _ . ! ~ * ' ( )`. -/
def uriUnescapedChar (c : Char) : Bool :=
  (('A' ≤ c && c ≤ 'Z') || ('a' ≤ c && c ≤ 'z') || ('0' ≤ c && c ≤ '9') ||
    c = '-' || c = '_' || c = '.' || c = '!' || c = '~' || c = '*' ||
    c = Char.ofNat 39 || c = '(' || c = ')')

/-- One character's contribution to `encodeURIComponent`'s output. -/
def encodeURIComponentChar (c : Char) : List Char :=
  if uriUnescapedChar c then [c] else (utf8Bytes c).flatMap percentByte

/-- The whole of `encodeURIComponent`, character list form. -/
def encodeURIComponentList (cs : List Char) : List Char :=
  cs.flatMap encodeURIComponentChar

/-- Global `input.replace(/x/g, repl)` for a single-character pattern `x`: every
occurrence of the character is replaced by `repl`. -/
def replaceCharBy (target : Char) (repl : List Char) (cs : List Char) : List Char :=
  cs.flatMap fun c => if c = target then repl else [c]

/-- Method `Request.urlEncode` (api.ts lines 192-200): `encodeURIComponent`
followed by the five global replacements `* ( ) ' !` into
`%2A %28 %29 %27 %21`. -/
def urlEncode (s : String) : String :=
  let e0 := encodeURIComponentList s.data
  let e1 := replaceCharBy '*' ['%', '2', 'A'] e0
  let e2 := replaceCharBy '(' ['%', '2', '8'] e1
  let e3 := replaceCharBy ')' ['%', '2', '9'] e2
  let e4 := replaceCharBy (Char.ofNat 39) ['%', '2', '7'] e3
  let e5 := replaceCharBy '!' ['%', '2', '1'] e4
  ⟨e5⟩

/-- The characters that survive the whole of `urlEncode` unescaped:
the `encodeURIComponent` set minus the five forced characters,
i.e. `A-Z a-z 0-9 - _ . ~`. -/
def urlSafeChar (c : Char) : Bool :=
  (('A' ≤ c && c ≤ 'Z') || ('a' ≤ c && c ≤ 'z') || ('0' ≤ c && c ≤ '9') ||
    c = '-' || c = '_' || c = '.' || c = '~')

/-- Fused per-character form of `urlEncode`: a character in the reduced
safe set passes through, every other character contributes the `%XX`
escapes of its UTF-8 bytes. -/
def urlEncodeChar (c : Char) : List Char :=
  if urlSafeChar c then [c] else (utf8Bytes c).flatMap percentByte

/-! ### Parameters (api.ts lines 39-85)

`Parameter.serialize()` returns a fresh dictionary; a dictionary is
modelled as an association list in property-creation order. -/

/-- The three `Parameter` implementations.  For `TimestampParameter` the
stored value is the `moment` instant; its serialization renders it with
`toISOString()`, an external pure function, so the model stores the
rendered ISO-8601 string directly. -/
inductive Parameter where
  | string (key value : String)
  | timestamp (key iso : String)
  | list (key : String) (values : List String)
deriving DecidableEq

/-- The counting loop of `ListParameter.serialize` (api.ts lines 75-84):
`result[this.key + '.' + ++count] = value` for each value in order,
with `count` starting from `c`. -/
def listSerialize (key : String) : Nat → List String → List (String × String)
  | _, [] => []
  | c, v :: vs => (key ++ "." ++ toString (c + 1), v) :: listSerialize key (c + 1) vs

/-- Method `Parameter.serialize()` for each variant (api.ts lines 47-51, 58-62,
75-84). -/
def Parameter.serialize : Parameter → List (String × String)
  | .string k v => [(k, v)]
  | .timestamp k iso => [(k, iso)]
  | .list k vs => listSerialize k 0 vs

/-! ### The canonical mapping (api.ts lines 154-190)

Both `getStringToSign` and `getQueryString` build a plain JavaScript
object by `_.extend`-ing every parameter's serialization into it.
Property assignment on an object overwrites the value of an existing key
in place and appends a new key; the model is an association list with
exactly that update-or-append operation.  (JavaScript additionally
enumerates integer-like property keys first; that can only permute the
pairs of the final query string, never their presence or values, and no
statement below depends on the query string's pair order.) -/

/-- Assignment `obj[k] = v`: overwrite in place if the key exists, else append. -/
def objSet (m : List (String × String)) (k v : String) : List (String × String) :=
  if m.any (fun p => p.1 == k) then
    m.map (fun p => if p.1 == k then (k, v) else p)
  else m ++ [(k, v)]

/-- Merge `_.extend(input, serialized)`: assign every pair in order. -/
def objExtend (m : List (String × String)) (ps : List (String × String)) :
    List (String × String) :=
  ps.foldl (fun acc p => objSet acc p.1 p.2) m

/-- The object accumulated from the whole parameter sequence
(api.ts lines 155-160 and 171-176). -/
def canonicalMap (params : List Parameter) : List (String × String) :=
  params.foldl (fun acc p => objExtend acc p.serialize) []

/-! ### Key sorting (api.ts line 178)

`_.keys(input).sort()` sorts the keys with JavaScript's default string
comparison, which is lexicographic on the sequences of UTF-16 code
units.  The keys of the canonical mapping are pairwise distinct, so any
correct sorting algorithm returns the same list; the model uses
`List.insertionSort`. -/

/-- The UTF-16 code units of a Unicode scalar value. -/
def utf16Encode (c : Char) : List Nat :=
  if c.toNat < 0x10000 then [c.toNat]
  else [0xD800 + (c.toNat - 0x10000) / 1024, 0xDC00 + (c.toNat - 0x10000) % 1024]

/-- The UTF-16 code units of a string. -/
def utf16Units (s : String) : List Nat := s.data.flatMap utf16Encode

/-- Lexicographic strict order on code-unit sequences (a proper prefix is
smaller), as JavaScript's `<` on strings. -/
def unitsLt : List Nat → List Nat → Bool
  | [], [] => false
  | [], _ :: _ => true
  | _ :: _, [] => false
  | a :: as, b :: bs => if a < b then true else if b < a then false else unitsLt as bs

/-- JavaScript default sort order on strings: `a` may precede `b` iff `b`
is not strictly smaller. -/
def jsKeyLe (a b : String) : Prop := unitsLt (utf16Units b) (utf16Units a) = false

instance : DecidableRel jsKeyLe := fun _ _ => instDecidableEqBool _ _

/-- Sorting `_.keys(input).sort()`. -/
def sortKeys (keys : List String) : List String := List.insertionSort jsKeyLe keys

/-! ### `getStringToSign` and `getQueryString` (api.ts lines 154-190) -/

/-- Join `str.join(sep)`, the accumulate-with-separator loop of
api.ts lines 180-187. -/
def joinSep (sep : String) : List String → String
  | [] => ""
  | [x] => x
  | x :: y :: rest => x ++ sep ++ joinSep sep (y :: rest)

/-- Access `input[k]` for a key taken from the object itself; the lookup always
succeeds, the default is never reached. -/
def lookupD (m : List (String × String)) (k : String) : String :=
  (m.lookup k).getD ""

/-- Method `Request.getStringToSign` (api.ts lines 170-190). -/
def getStringToSign (params : List Parameter) (host endpoint : String) : String :=
  let input := canonicalMap params
  let keys := sortKeys (input.map Prod.fst)
  let str := joinSep "&" (keys.map fun k => k ++ "=" ++ urlEncode (lookupD input k))
  joinSep "\n" ["POST", host, endpoint, str]

/-- Method `Request.getQueryString` (api.ts lines 154-168): pairs in object
order, unsorted, keys raw and values encoded. -/
def getQueryString (params : List Parameter) : String :=
  let input := canonicalMap params
  joinSep "&" (input.map fun p => p.1 ++ "=" ++ urlEncode p.2)

/-! ### The request (api.ts lines 91-152) -/

/-- Interface `Credentials` (api.ts lines 28-33). -/
structure Credentials where
  sellerId : String
  awsAccountId : String
  secretKey : String
  host : String
deriving DecidableEq

/-- A `Request`: endpoint, credentials and the ordered parameter
sequence. -/
structure Request where
  endpoint : String
  credentials : Credentials
  parameters : List Parameter
deriving DecidableEq

/-- The `Request` constructor (api.ts lines 94-100): the four seed
parameters, with `moment()` rendered at construction time supplied as
`nowIso`. -/
def Request.new (endpoint : String) (credentials : Credentials) (nowIso : String) :
    Request :=
  { endpoint := endpoint
    credentials := credentials
    parameters :=
      [.string "AWSAccessKeyId" credentials.awsAccountId,
       .string "SignatureMethod" "HmacSHA256",
       .string "SignatureVersion" "2",
       .timestamp "Timestamp" nowIso] }

/-- Method `Request.addParam` (api.ts lines 102-104). -/
def Request.addParam (r : Request) (p : Parameter) : Request :=
  { r with parameters := r.parameters ++ [p] }

/-! ### `hexStrToBase64` and the signature (api.ts lines 139-152, 202-228)

The loop walks the hex digest six characters (three bytes) at a time and
emits four base64 characters per step.  `charAt` past the end returns
the empty string and `"0123456789abcdef".indexOf('')` is `0`;
`indexOf` of a character not in the table is `-1`.  The `<< 4`, `<< 16`
and `<< 8` shifts act on values small enough that the 32-bit shift is
exact multiplication; `|` is 32-bit or, exact for these operands, and
`>>>` reinterprets as unsigned 32-bit before shifting. -/

/-- The hex lookup table `hex` of api.ts line 206. -/
def hexTable : List Char := "0123456789abcdef".data

/-- Search `s.indexOf(c)` over a character list: first index or `-1`. -/
def jsIndexOf (cs : List Char) (c : Char) : Int :=
  match cs.findIdx? (fun d => d == c) with
  | some i => Int.ofNat i
  | none => -1

/-- Lookup `"0123456789abcdef".indexOf(input.charAt(i))`: out-of-range `charAt`
gives `''`, whose `indexOf` is `0`. -/
def hexAt (cs : List Char) (k : Nat) : Int :=
  match cs.get? k with
  | some c => jsIndexOf hexTable c
  | none => 0

/-- JavaScript `x >>> 0`: the unsigned 32-bit reinterpretation. -/
def jsToUint32 (x : Int) : Nat := (x % 4294967296).toNat

/-- The base64 alphabet table `tab` of api.ts line 205. -/
def b64Table : List Char :=
  "ABCDEFGHIJKLMNOPQRSTUVWXYZabcdefghijklmnopqrstuvwxyz0123456789+/".data

/-- The 24-bit triplet of one loop step (api.ts lines 210-219), with the
window re-based to the current six-character suffix `cs`. -/
def hexTriplet (cs : List Char) : Int :=
  let c1 := hexAt cs 0 * 16 + hexAt cs 1
  let c2 := (if 2 < cs.length then hexAt cs 2 * 16 else 0) +
            (if 3 < cs.length then hexAt cs 3 else 0)
  let c3 := (if 4 < cs.length then hexAt cs 4 * 16 else 0) +
            (if 5 < cs.length then hexAt cs 5 else 0)
  Int.lor (Int.lor (c1 * 65536) (c2 * 256)) c3

/-- One output character (api.ts lines 220-224).  The padding test
`(i/2)*8 + j*6 > (input.length/2)*8` becomes `6*j > 4*cs.length` for the
current suffix `cs` (both sides were exact, including odd lengths).  The
table index is `&&& 63`, hence below 64; the default is unreachable. -/
def hexChunkChar (cs : List Char) (j : Nat) : Char :=
  if 6 * j > 4 * cs.length then '='
  else b64Table.getD ((jsToUint32 (hexTriplet cs) >>> (6 * (3 - j))) &&& 63) '='

/-- The four characters of one loop step (`for j` of api.ts line 220). -/
def hexChunk (cs : List Char) : List Char :=
  (List.range 4).map (hexChunkChar cs)

/-- Method `Request.hexStrToBase64` (api.ts lines 202-228): the outer `for i`
loop, six characters at a time. -/
def hexStrToBase64 : List Char → List Char
  | [] => []
  | c :: rest => hexChunk (c :: rest) ++ hexStrToBase64 (rest.drop 5)
termination_by cs => cs.length
decreasing_by
  simp only [List.length_drop, List.length_cons]
  omega

/-- The padding loop of `getSignature` (api.ts lines 145-149): append
`length % 4` equals signs. -/
def padMod4 (s : List Char) : List Char :=
  s ++ List.replicate (s.length % 4) '='

/-- Method `Request.getSignature` (api.ts lines 139-152).  The HMAC-SHA256
primitive of the `crypto` module is external; it is passed in as
`hmacSha256Hex key message`, returning the lowercase hex digest. -/
def Request.getSignature (hmacSha256Hex : String → String → String) (r : Request) :
    String :=
  let strToSign := getStringToSign r.parameters r.credentials.host r.endpoint
  let hmac := hmacSha256Hex r.credentials.secretKey strToSign
  ⟨padMod4 (hexStrToBase64 hmac.data)⟩

/-- The synchronous part of `Request.send` (api.ts lines 106-116): compute
the signature from the current parameters, append it as an ordinary
`StringParameter`, and build the transmitted query string.  Returns the
updated request and the query string; the network call and response
classification are the transport boundary, modelled by
`classifyResponse` below. -/
def Request.send (hmacSha256Hex : String → String → String) (r : Request) :
    Request × String :=
  let signature := r.getSignature hmacSha256Hex
  let r2 := r.addParam (.string "Signature" signature)
  (r2, getQueryString r2.parameters)

/-! ### Response classification (api.ts lines 122-136)

The network layer and the XML parser are external; the classification
logic of the `request.post` callback is the repository's own code.  A
parsed `xml2js` structure (with `explicitArray: false`) is a tree of
objects and strings. -/

/-- A parsed XML value: a text leaf or an object of named children. -/
inductive XmlValue where
  | text : String → XmlValue
  | node : List (String × XmlValue) → XmlValue

/-- Property access `x[k]` on a parsed value; `none` models
`undefined`. -/
def XmlValue.get : XmlValue → String → Option XmlValue
  | .text _, _ => none
  | .node kvs, k => kvs.lookup k

/-- The outcome of the HTTP call itself, before parsing. -/
inductive HttpResult where
  | failure (err : String)
  | success (body : String)

/-- The outcome of `xmlParse` on a body. -/
inductive ParseOutcome where
  | failure (err : String)
  | ok (result : XmlValue)

/-- The single outcome handed to the callback, one constructor per
`origin` tag of api.ts lines 123-132 (`PostRequest`, `XMLParsing`,
`MWS`) plus success.  On the MWS branch the `message` field may be
`undefined` (JavaScript allows an absent member there, e.g. when the
`Error` child is a text leaf), modelled as `Option`; the `metadata`
field is always the defined `Error` value, since the branch is only
reached when its computation did not throw. -/
inductive Outcome where
  | postRequestError (message : String)
  | xmlParsingError (message : String)
  | mwsError (message : Option XmlValue) (metadata : XmlValue)
  | success (result : XmlValue)

/-- The classification chain of the `request.post` callback
(api.ts lines 122-136), with the parser passed in as `parse`.  The value
is the outcome delivered to the callback, or `none` when the callback
body throws and no outcome is delivered.  On the `MWS` branch the code
reads `result['ErrorResponse']['Error']['Message']` as the message and
`result['ErrorResponse']['Error']` as the metadata.  In JavaScript a
member access on a string or an object never throws (it yields
`undefined` when the member is absent), but a member access ON
`undefined` throws a `TypeError`: when `result['ErrorResponse']` is
present (so `_.has` selects the MWS branch) yet
`result['ErrorResponse']['Error']` is `undefined` — e.g. the body
`<ErrorResponse/>`, which xml2js parses to an `ErrorResponse` key
holding the empty string — evaluating `['Message']` on it throws inside
the parse callback and the result callback is never invoked, modelled
by `none`. -/
def classifyResponse (parse : String → ParseOutcome) : HttpResult → Option Outcome
  | .failure err => some (.postRequestError err)
  | .success body =>
    match parse body with
    | .failure err => some (.xmlParsingError err)
    | .ok result =>
      match result.get "ErrorResponse" with
      | some er =>
        match er.get "Error" with
        | some e => some (.mwsError (e.get "Message") e)
        | none => none
      | none => some (.success result)

/-! ### Definitions taken from the specification's words

These are deliberately NOT translations of api.ts; each is the
specification's description of a step, used to compare the code against
the spec (refinement/equivalence claims and counterexamples). -/

/-- Modelled from the spec: the standard base64 encoding of a byte
sequence, with canonical `=` padding (spec section 4.3 step 4). -/
def base64Encode : List Nat → List Char
  | b0 :: b1 :: b2 :: rest =>
      b64Table.getD (b0 / 4) '=' ::
      b64Table.getD (b0 % 4 * 16 + b1 / 16) '=' ::
      b64Table.getD (b1 % 16 * 4 + b2 / 64) '=' ::
      b64Table.getD (b2 % 64) '=' :: base64Encode rest
  | [b0, b1] =>
      [b64Table.getD (b0 / 4) '=',
       b64Table.getD (b0 % 4 * 16 + b1 / 16) '=',
       b64Table.getD (b1 % 16 * 4) '=', '=']
  | [b0] =>
      [b64Table.getD (b0 / 4) '=',
       b64Table.getD (b0 % 4 * 16) '=', '=', '=']
  | [] => []

/-- Lowercase hex digit for `d < 16`. -/
def hexDigitChar (d : Nat) : Char := hexTable.getD d '0'

/-- The lowercase hex rendering of a byte sequence, as Node's
`digest('hex')` produces it: two lowercase hex digits per byte. -/
def bytesToHex (bs : List Nat) : List Char :=
  bs.flatMap fun b => [hexDigitChar (b / 16 % 16), hexDigitChar (b % 16)]

/-- Modelled from the spec: "pure lexicographic (byte-wise) ordering of
the key strings" — lexicographic order on the UTF-8 byte sequences. -/
def byteKeyLe (a b : String) : Prop :=
  unitsLt (b.data.flatMap utf8Bytes) (a.data.flatMap utf8Bytes) = false

instance : DecidableRel byteKeyLe := fun _ _ => instDecidableEqBool _ _

/-- Modelled from the spec: `getStringToSign` as claim C1 words it, with
the pairs ordered by byte-wise comparison of the keys. -/
def stringToSignByteSorted (params : List Parameter) (host endpoint : String) :
    String :=
  let input := canonicalMap params
  let keys := List.insertionSort byteKeyLe (input.map Prod.fst)
  let str := joinSep "&" (keys.map fun k => k ++ "=" ++ urlEncode (lookupD input k))
  joinSep "\n" ["POST", host, endpoint, str]

/-! ## Theorems -/

/-- Claim C9: applying the client's URL-encoding helper to the literal
value `a*b(c)d'e!f` yields exactly `a%2Ab%28c%29d%27e%21f`. -/
theorem c9_urlEncode_example :
    urlEncode (String.mk ['a', '*', 'b', '(', 'c', ')', 'd', Char.ofNat 39, 'e', '!', 'f']) =
      "a%2Ab%28c%29d%27e%21f" := by decide

/-- Running `listSerialize` with starting counter `c` produces the values in
order under keys `key.(c+1), key.(c+2), …`. -/
theorem listSerialize_eq_zipWith (key : String) :
    ∀ (c : Nat) (vs : List String),
      listSerialize key c vs =
        List.zipWith (fun i v => (key ++ "." ++ toString (c + i + 1), v))
          (List.range vs.length) vs
  | _, [] => rfl
  | c, v :: vs => by
    simp only [listSerialize, List.length_cons, List.range_succ_eq_map,
      List.zipWith_cons_cons, List.zipWith_map_left]
    rw [listSerialize_eq_zipWith key (c + 1) vs]
    have hf : (fun (i : Nat) (w : String) => (key ++ "." ++ toString (c + 1 + i + 1), w)) =
        (fun (i : Nat) (w : String) => (key ++ "." ++ toString (c + i.succ + 1), w)) := by
      funext i w
      have : c + 1 + i + 1 = c + i.succ + 1 := by omega
      rw [this]
    rw [← hf]

/-- Claim C7: a `ListParameter` with key `K` and ordered values
`v1 … vn` serializes to exactly the `n` pairs `K.1 ↦ v1, …, K.n ↦ vn`,
1-based, contiguous, in insertion order; zero values give the empty
mapping. -/
theorem c7_listParameter_serialize (key : String) (vs : List String) :
    Parameter.serialize (.list key vs) =
      List.zipWith (fun i v => (key ++ "." ++ toString (i + 1), v))
        (List.range vs.length) vs ∧
    Parameter.serialize (.list key []) = [] := by
  constructor
  · show listSerialize key 0 vs = _
    rw [listSerialize_eq_zipWith key 0 vs]
    have hf : (fun (i : Nat) (w : String) => (key ++ "." ++ toString (0 + i + 1), w)) =
        (fun (i : Nat) (w : String) => (key ++ "." ++ toString (i + 1), w)) := by
      funext i w
      have : 0 + i + 1 = i + 1 := by omega
      rw [this]
    rw [hf]
  · rfl

/-! ### Equivalence of `hexStrToBase64` with standard base64 (claim C2) -/

/-- Bitwise or is addition when the low bits are vacant. -/
theorem nat_lor_eq_add {a b k : Nat} (hb : b < 2 ^ k) :
    (a * 2 ^ k) ||| b = a * 2 ^ k + b := by
  apply Nat.eq_of_testBit_eq
  intro i
  rw [Nat.testBit_lor, Nat.mul_comm a, Nat.testBit_mul_pow_two,
    Nat.testBit_mul_pow_two_add a hb i]
  by_cases h : i < k
  · simp [h, Nat.not_le_of_lt h]
  · have hge : k ≤ i := Nat.le_of_not_lt h
    have hbf : b.testBit i = false :=
      Nat.testBit_lt_two_pow (Nat.lt_of_lt_of_le hb (Nat.pow_le_pow_right (by omega) hge))
    simp [h, hge, hbf]

/-- Masking `x &&& 63` is `x % 64`. -/
theorem nat_and_63 (x : Nat) : x &&& 63 = x % 64 := by
  have h := Nat.and_pow_two_sub_one_eq_mod x 6
  norm_num at h
  exact h

/-- Looking a hex digit of the table back up finds its index. -/
theorem jsIndexOf_hexDigit :
    ∀ d < 16, jsIndexOf hexTable (hexDigitChar d) = (d : Int) := by decide

/-- Conversion `jsToUint32` is the identity on 32-bit-ranged naturals. -/
theorem jsToUint32_ofNat (n : Nat) (h : n < 4294967296) :
    jsToUint32 (n : Int) = n := by
  unfold jsToUint32
  rw [Int.emod_eq_of_lt (by omega) (by omega)]
  simp

theorem int_lor_ofNat (a b : Nat) :
    Int.lor (a : Int) (b : Int) = ((a ||| b : Nat) : Int) := rfl

theorem int_lor_nat_zero (a : Nat) : Int.lor (a : Int) 0 = (a : Int) := by
  have h : Int.lor (a : Int) 0 = ((a ||| 0 : Nat) : Int) := rfl
  rw [h]
  norm_num

/-- One byte of `bytesToHex`. -/
theorem bytesToHex_cons (b : Nat) (bs : List Nat) :
    bytesToHex (b :: bs) =
      hexDigitChar (b / 16 % 16) :: hexDigitChar (b % 16) :: bytesToHex bs := by
  simp [bytesToHex]

theorem bytesToHex_nil : bytesToHex [] = [] := rfl

/-- The 24-bit triplet of a full three-byte window. -/
theorem hexTriplet_full (b0 b1 b2 : Nat) (hb0 : b0 < 256) (hb1 : b1 < 256)
    (hb2 : b2 < 256) (tail : List Char) :
    hexTriplet (hexDigitChar (b0 / 16 % 16) :: hexDigitChar (b0 % 16) ::
        hexDigitChar (b1 / 16 % 16) :: hexDigitChar (b1 % 16) ::
        hexDigitChar (b2 / 16 % 16) :: hexDigitChar (b2 % 16) :: tail) =
      ((b0 * 65536 + b1 * 256 + b2 : Nat) : Int) := by
  have e0 := jsIndexOf_hexDigit (b0 / 16 % 16) (by omega)
  have e1 := jsIndexOf_hexDigit (b0 % 16) (by omega)
  have e2 := jsIndexOf_hexDigit (b1 / 16 % 16) (by omega)
  have e3 := jsIndexOf_hexDigit (b1 % 16) (by omega)
  have e4 := jsIndexOf_hexDigit (b2 / 16 % 16) (by omega)
  have e5 := jsIndexOf_hexDigit (b2 % 16) (by omega)
  simp only [bytesToHex, List.flatMap_cons, List.flatMap_nil, List.append_nil,
    List.cons_append, List.nil_append, hexTriplet, hexAt, List.get?_cons_zero,
    List.get?_cons_succ, List.length_cons, List.length_append]
  simp only [e0, e1, e2, e3, e4, e5]
  rw [if_pos (by omega), if_pos (by omega), if_pos (by omega), if_pos (by omega)]
  have hc1 : ((b0 / 16 % 16 : Nat) : Int) * 16 + ((b0 % 16 : Nat) : Int) = (b0 : Int) := by
    omega
  have hc2 : ((b1 / 16 % 16 : Nat) : Int) * 16 + ((b1 % 16 : Nat) : Int) = (b1 : Int) := by
    omega
  have hc3 : ((b2 / 16 % 16 : Nat) : Int) * 16 + ((b2 % 16 : Nat) : Int) = (b2 : Int) := by
    omega
  rw [hc1, hc2, hc3]
  have hm1 : (b0 : Int) * 65536 = ((b0 * 65536 : Nat) : Int) := by push_cast; ring
  have hm2 : (b1 : Int) * 256 = ((b1 * 256 : Nat) : Int) := by push_cast; ring
  rw [hm1, hm2, int_lor_ofNat, int_lor_ofNat]
  congr 1
  have h1 : b0 * 65536 ||| b1 * 256 = b0 * 65536 + b1 * 256 := by
    have := @nat_lor_eq_add b0 (b1 * 256) 16 (by omega)
    norm_num at this
    exact this
  rw [h1]
  have h2 : b0 * 65536 + b1 * 256 = (b0 * 256 + b1) * 2 ^ 8 := by ring
  rw [h2, nat_lor_eq_add (by omega)]

/-- The triplet of a final two-byte window (hex length 4). -/
theorem hexTriplet_two (b0 b1 : Nat) (hb0 : b0 < 256) (hb1 : b1 < 256) :
    hexTriplet [hexDigitChar (b0 / 16 % 16), hexDigitChar (b0 % 16),
        hexDigitChar (b1 / 16 % 16), hexDigitChar (b1 % 16)] =
      ((b0 * 65536 + b1 * 256 : Nat) : Int) := by
  have e0 := jsIndexOf_hexDigit (b0 / 16 % 16) (by omega)
  have e1 := jsIndexOf_hexDigit (b0 % 16) (by omega)
  have e2 := jsIndexOf_hexDigit (b1 / 16 % 16) (by omega)
  have e3 := jsIndexOf_hexDigit (b1 % 16) (by omega)
  simp only [hexTriplet, hexAt, List.get?_cons_zero, List.get?_cons_succ,
    List.get?_nil, List.length_cons, List.length_nil]
  simp only [e0, e1, e2, e3]
  rw [if_pos (by omega), if_pos (by omega), if_neg (by omega), if_neg (by omega)]
  have hc1 : ((b0 / 16 % 16 : Nat) : Int) * 16 + ((b0 % 16 : Nat) : Int) = (b0 : Int) := by
    omega
  have hc2 : ((b1 / 16 % 16 : Nat) : Int) * 16 + ((b1 % 16 : Nat) : Int) = (b1 : Int) := by
    omega
  rw [hc1, hc2]
  have hm1 : (b0 : Int) * 65536 = ((b0 * 65536 : Nat) : Int) := by push_cast; ring
  have hm2 : (b1 : Int) * 256 = ((b1 * 256 : Nat) : Int) := by push_cast; ring
  rw [hm1, hm2, int_lor_ofNat]
  have h1 : b0 * 65536 ||| b1 * 256 = b0 * 65536 + b1 * 256 := by
    have := @nat_lor_eq_add b0 (b1 * 256) 16 (by omega)
    norm_num at this
    exact this
  rw [h1]
  have h0 : ((0 : Int) + 0) = 0 := by norm_num
  rw [h0, int_lor_nat_zero]

/-- The triplet of a final one-byte window (hex length 2). -/
theorem hexTriplet_one (b0 : Nat) (hb0 : b0 < 256) :
    hexTriplet [hexDigitChar (b0 / 16 % 16), hexDigitChar (b0 % 16)] =
      ((b0 * 65536 : Nat) : Int) := by
  have e0 := jsIndexOf_hexDigit (b0 / 16 % 16) (by omega)
  have e1 := jsIndexOf_hexDigit (b0 % 16) (by omega)
  simp only [hexTriplet, hexAt, List.get?_cons_zero, List.get?_cons_succ,
    List.get?_nil, List.length_cons, List.length_nil]
  simp only [e0, e1]
  rw [if_neg (by omega), if_neg (by omega), if_neg (by omega), if_neg (by omega)]
  have hc1 : ((b0 / 16 % 16 : Nat) : Int) * 16 + ((b0 % 16 : Nat) : Int) = (b0 : Int) := by
    omega
  rw [hc1]
  have hm1 : (b0 : Int) * 65536 = ((b0 * 65536 : Nat) : Int) := by push_cast; ring
  have h0 : ((0 : Int) + 0) = 0 := by norm_num
  have hz : ((0 : Int) * 256) = 0 := by norm_num
  rw [hm1, h0, hz, int_lor_nat_zero, int_lor_nat_zero]

/-- Four base64 characters from a full three-byte window. -/
theorem hexChunk_full (b0 b1 b2 : Nat) (hb0 : b0 < 256) (hb1 : b1 < 256)
    (hb2 : b2 < 256) (tail : List Char) :
    hexChunk (hexDigitChar (b0 / 16 % 16) :: hexDigitChar (b0 % 16) ::
        hexDigitChar (b1 / 16 % 16) :: hexDigitChar (b1 % 16) ::
        hexDigitChar (b2 / 16 % 16) :: hexDigitChar (b2 % 16) :: tail) =
      [b64Table.getD (b0 / 4) '=', b64Table.getD (b0 % 4 * 16 + b1 / 16) '=',
       b64Table.getD (b1 % 16 * 4 + b2 / 64) '=', b64Table.getD (b2 % 64) '='] := by
  have ht := hexTriplet_full b0 b1 b2 hb0 hb1 hb2 tail
  have hr4 : List.range 4 = [0, 1, 2, 3] := rfl
  simp only [hexChunk, hr4, List.map_cons, List.map_nil, hexChunkChar, ht,
    List.length_cons]
  rw [if_neg (by omega), if_neg (by omega), if_neg (by omega), if_neg (by omega)]
  rw [jsToUint32_ofNat _ (by omega)]
  have hand : ∀ x s : Nat, (x >>> s) &&& 63 = x / 2 ^ s % 64 := by
    intro x s
    rw [Nat.shiftRight_eq_div_pow, nat_and_63]
  simp only [hand]
  have i0 : (b0 * 65536 + b1 * 256 + b2) / 2 ^ (6 * (3 - 0)) % 64 = b0 / 4 := by
    have hp : (2 : Nat) ^ (6 * (3 - 0)) = 262144 := by norm_num
    rw [hp]; omega
  have i1 : (b0 * 65536 + b1 * 256 + b2) / 2 ^ (6 * (3 - 1)) % 64 =
      b0 % 4 * 16 + b1 / 16 := by
    have hp : (2 : Nat) ^ (6 * (3 - 1)) = 4096 := by norm_num
    rw [hp]; omega
  have i2 : (b0 * 65536 + b1 * 256 + b2) / 2 ^ (6 * (3 - 2)) % 64 =
      b1 % 16 * 4 + b2 / 64 := by
    have hp : (2 : Nat) ^ (6 * (3 - 2)) = 64 := by norm_num
    rw [hp]; omega
  have i3 : (b0 * 65536 + b1 * 256 + b2) / 2 ^ (6 * (3 - 3)) % 64 = b2 % 64 := by
    have hp : (2 : Nat) ^ (6 * (3 - 3)) = 1 := by norm_num
    rw [hp]; omega
  rw [i0, i1, i2, i3]

/-- Three base64 characters and one pad from a final two-byte window. -/
theorem hexChunk_two (b0 b1 : Nat) (hb0 : b0 < 256) (hb1 : b1 < 256) :
    hexChunk [hexDigitChar (b0 / 16 % 16), hexDigitChar (b0 % 16),
        hexDigitChar (b1 / 16 % 16), hexDigitChar (b1 % 16)] =
      [b64Table.getD (b0 / 4) '=', b64Table.getD (b0 % 4 * 16 + b1 / 16) '=',
       b64Table.getD (b1 % 16 * 4) '=', '='] := by
  have ht := hexTriplet_two b0 b1 hb0 hb1
  have hr4 : List.range 4 = [0, 1, 2, 3] := rfl
  simp only [hexChunk, hr4, List.map_cons, List.map_nil, hexChunkChar, ht,
    List.length_cons, List.length_nil]
  rw [if_neg (by omega), if_neg (by omega), if_neg (by omega), if_pos (by omega)]
  rw [jsToUint32_ofNat _ (by omega)]
  have hand : ∀ x s : Nat, (x >>> s) &&& 63 = x / 2 ^ s % 64 := by
    intro x s
    rw [Nat.shiftRight_eq_div_pow, nat_and_63]
  simp only [hand]
  have i0 : (b0 * 65536 + b1 * 256) / 2 ^ (6 * (3 - 0)) % 64 = b0 / 4 := by
    have hp : (2 : Nat) ^ (6 * (3 - 0)) = 262144 := by norm_num
    rw [hp]; omega
  have i1 : (b0 * 65536 + b1 * 256) / 2 ^ (6 * (3 - 1)) % 64 =
      b0 % 4 * 16 + b1 / 16 := by
    have hp : (2 : Nat) ^ (6 * (3 - 1)) = 4096 := by norm_num
    rw [hp]; omega
  have i2 : (b0 * 65536 + b1 * 256) / 2 ^ (6 * (3 - 2)) % 64 = b1 % 16 * 4 := by
    have hp : (2 : Nat) ^ (6 * (3 - 2)) = 64 := by norm_num
    rw [hp]; omega
  rw [i0, i1, i2]

/-- Two base64 characters and two pads from a final one-byte window. -/
theorem hexChunk_one (b0 : Nat) (hb0 : b0 < 256) :
    hexChunk [hexDigitChar (b0 / 16 % 16), hexDigitChar (b0 % 16)] =
      [b64Table.getD (b0 / 4) '=', b64Table.getD (b0 % 4 * 16) '=', '=', '='] := by
  have ht := hexTriplet_one b0 hb0
  have hr4 : List.range 4 = [0, 1, 2, 3] := rfl
  simp only [hexChunk, hr4, List.map_cons, List.map_nil, hexChunkChar, ht,
    List.length_cons, List.length_nil]
  rw [if_neg (by omega), if_neg (by omega), if_pos (by omega), if_pos (by omega)]
  rw [jsToUint32_ofNat _ (by omega)]
  have hand : ∀ x s : Nat, (x >>> s) &&& 63 = x / 2 ^ s % 64 := by
    intro x s
    rw [Nat.shiftRight_eq_div_pow, nat_and_63]
  simp only [hand]
  have i0 : b0 * 65536 / 2 ^ (6 * (3 - 0)) % 64 = b0 / 4 := by
    have hp : (2 : Nat) ^ (6 * (3 - 0)) = 262144 := by norm_num
    rw [hp]; omega
  have i1 : b0 * 65536 / 2 ^ (6 * (3 - 1)) % 64 = b0 % 4 * 16 := by
    have hp : (2 : Nat) ^ (6 * (3 - 1)) = 4096 := by norm_num
    rw [hp]; omega
  rw [i0, i1]

/-- One step of the outer loop on an at-least-six-character input. -/
theorem hexStrToBase64_cons6 (a b c d e f : Char) (tail : List Char) :
    hexStrToBase64 (a :: b :: c :: d :: e :: f :: tail) =
      hexChunk (a :: b :: c :: d :: e :: f :: tail) ++ hexStrToBase64 tail := by
  rw [hexStrToBase64.eq_2]
  simp [List.drop]

/-- The table-driven loop agrees with the standard base64 encoding of the
underlying bytes, on the hex rendering of any byte sequence. -/
theorem hexStrToBase64_bytesToHex :
    ∀ (bs : List Nat), (∀ b ∈ bs, b < 256) →
      hexStrToBase64 (bytesToHex bs) = base64Encode bs
  | [], _ => by rw [bytesToHex_nil, hexStrToBase64.eq_1]; rfl
  | [b0], h => by
    have hb0 : b0 < 256 := h b0 (by simp)
    rw [bytesToHex_cons, bytesToHex_nil, hexStrToBase64.eq_2]
    simp only [List.drop, hexStrToBase64.eq_1, List.append_nil]
    rw [hexChunk_one b0 hb0]
    simp [base64Encode]
  | [b0, b1], h => by
    have hb0 : b0 < 256 := h b0 (by simp)
    have hb1 : b1 < 256 := h b1 (by simp)
    rw [bytesToHex_cons, bytesToHex_cons, bytesToHex_nil, hexStrToBase64.eq_2]
    simp only [List.drop, hexStrToBase64.eq_1, List.append_nil]
    rw [hexChunk_two b0 b1 hb0 hb1]
    simp [base64Encode]
  | b0 :: b1 :: b2 :: rest, h => by
    have hb0 : b0 < 256 := h b0 (by simp)
    have hb1 : b1 < 256 := h b1 (by simp)
    have hb2 : b2 < 256 := h b2 (by simp)
    rw [bytesToHex_cons, bytesToHex_cons, bytesToHex_cons, hexStrToBase64_cons6,
      hexChunk_full b0 b1 b2 hb0 hb1 hb2 (bytesToHex rest),
      hexStrToBase64_bytesToHex rest (fun b hb => h b (by simp [hb]))]
    simp [base64Encode]

/-- The standard base64 encoding is four characters per three-byte
block. -/
theorem base64Encode_length :
    ∀ bs : List Nat, (base64Encode bs).length = 4 * ((bs.length + 2) / 3)
  | [] => rfl
  | [_] => by simp [base64Encode]
  | [_, _] => by simp [base64Encode]
  | b0 :: b1 :: b2 :: rest => by
    simp only [base64Encode, List.length_cons, base64Encode_length rest]
    omega

/-- The extra padding loop of `getSignature` is a no-op on standard
base64 output, whose length is already a multiple of four. -/
theorem padMod4_base64 (bs : List Nat) :
    padMod4 (base64Encode bs) = base64Encode bs := by
  unfold padMod4
  rw [base64Encode_length]
  have h : 4 * ((bs.length + 2) / 3) % 4 = 0 := by omega
  rw [h]
  simp

/-- Claim C2: for every request, the transmitted `Signature` value — the
hex-digit-table conversion of the HMAC-SHA256 hex digest followed by the
`=`-appending loop — equals the standard base64 encoding, with its own
canonical padding, of the raw 32-byte digest; the encoded form is 44
characters long, a multiple of 4. -/
theorem c2_signature_is_standard_base64 (r : Request)
    (hmacSha256Hex : String → String → String) (digest : List Nat)
    (hlen : digest.length = 32) (hbytes : ∀ b ∈ digest, b < 256)
    (hdig : (hmacSha256Hex r.credentials.secretKey
        (getStringToSign r.parameters r.credentials.host r.endpoint)).data =
      bytesToHex digest) :
    r.getSignature hmacSha256Hex = ⟨base64Encode digest⟩ ∧
      (base64Encode digest).length = 44 := by
  constructor
  · show String.mk (padMod4 (hexStrToBase64 (hmacSha256Hex r.credentials.secretKey
        (getStringToSign r.parameters r.credentials.host r.endpoint)).data)) = _
    rw [hdig, hexStrToBase64_bytesToHex digest hbytes, padMod4_base64]
  · rw [base64Encode_length, hlen]

/-- Witness for C2 at a concrete 32-byte digest. -/
theorem c2_signature_is_standard_base64_witness :
    Request.getSignature
        (fun _ _ => ⟨bytesToHex ((List.range 32).map fun i => (i * 37 + 5) % 256)⟩)
        { endpoint := "/e", credentials := ⟨"s", "a", "k", "h"⟩, parameters := [] } =
      ⟨base64Encode ((List.range 32).map fun i => (i * 37 + 5) % 256)⟩ :=
  (c2_signature_is_standard_base64 _ _ _ (by decide) (by decide) rfl).1

/-! ### Order facts for the key sort (claims C1, C5) -/

theorem unitsLt_asymm : ∀ u v : List Nat, unitsLt u v = true → unitsLt v u = false
  | [], [] => by simp [unitsLt]
  | [], _ :: _ => by simp [unitsLt]
  | _ :: _, [] => by simp [unitsLt]
  | a :: as, b :: bs => by
    intro h
    simp only [unitsLt] at h ⊢
    rcases Nat.lt_trichotomy a b with hab | hab | hab
    · rw [if_neg (by omega), if_pos hab]
    · subst hab
      rw [if_neg (by omega), if_neg (by omega)] at h ⊢
      exact unitsLt_asymm as bs h
    · rw [if_neg (by omega), if_pos hab] at h
      exact absurd h (by simp)

theorem unitsLt_trans :
    ∀ u v w : List Nat, unitsLt u v = true → unitsLt v w = true → unitsLt u w = true
  | [], [], _ => by simp [unitsLt]
  | [], _ :: _, [] => by intro _ h2; simp [unitsLt] at h2
  | [], _ :: _, _ :: _ => by simp [unitsLt]
  | _ :: _, [], _ => by simp [unitsLt]
  | _ :: _, _ :: _, [] => by intro _ h2; simp [unitsLt] at h2
  | a :: as, b :: bs, c :: cs => by
    intro h1 h2
    simp only [unitsLt] at h1 h2 ⊢
    rcases Nat.lt_trichotomy a b with hab | hab | hab
    · rcases Nat.lt_trichotomy b c with hbc | hbc | hbc
      · rw [if_pos (by omega)]
      · subst hbc; rw [if_pos hab]
      · rw [if_neg (by omega), if_pos hbc] at h2
        exact absurd h2 (by simp)
    · subst hab
      rw [if_neg (by omega), if_neg (by omega)] at h1
      rcases Nat.lt_trichotomy a c with hac | hac | hac
      · rw [if_pos hac]
      · subst hac
        rw [if_neg (by omega), if_neg (by omega)] at h2 ⊢
        exact unitsLt_trans as bs cs h1 h2
      · rw [if_neg (by omega), if_pos hac] at h2
        exact absurd h2 (by simp)
    · rw [if_neg (by omega), if_pos hab] at h1
      exact absurd h1 (by simp)

theorem unitsLt_connex :
    ∀ u v : List Nat, unitsLt u v = false → unitsLt v u = false → u = v
  | [], [], _, _ => rfl
  | [], _ :: _, h1, _ => by simp [unitsLt] at h1
  | _ :: _, [], _, h2 => by simp [unitsLt] at h2
  | a :: as, b :: bs, h1, h2 => by
    simp only [unitsLt] at h1 h2
    rcases Nat.lt_trichotomy a b with hab | hab | hab
    · rw [if_pos hab] at h1
      exact absurd h1 (by simp)
    · subst hab
      rw [if_neg (by omega), if_neg (by omega)] at h1 h2
      rw [unitsLt_connex as bs h1 h2]
    · rw [if_pos hab] at h2
      exact absurd h2 (by simp)

/-! ### Injectivity of the UTF-16 rendering -/

theorem char_toNat_lt (c : Char) : c.toNat < 1114112 := by
  rcases c.valid with h | h
  · exact Nat.lt_trans h (by norm_num)
  · exact h.2

theorem char_not_surrogate (c : Char) : c.toNat < 55296 ∨ 57343 < c.toNat := by
  rcases c.valid with h | h
  · exact Or.inl h
  · exact Or.inr h.1

theorem char_eq_of_toNat {c d : Char} (h : c.toNat = d.toNat) : c = d := by
  apply Char.ext
  exact UInt32.toNat.inj h

theorem utf16Encode_prefix_inj (c d : Char) (x y : List Nat)
    (h : utf16Encode c ++ x = utf16Encode d ++ y) : c = d ∧ x = y := by
  have hc1 := char_toNat_lt c
  have hc2 := char_not_surrogate c
  have hd1 := char_toNat_lt d
  have hd2 := char_not_surrogate d
  unfold utf16Encode at h
  by_cases hcb : c.toNat < 65536 <;> by_cases hdb : d.toNat < 65536
  · rw [if_pos hcb, if_pos hdb] at h
    simp only [List.cons_append, List.cons.injEq] at h
    exact ⟨char_eq_of_toNat h.1, h.2⟩
  · rw [if_pos hcb, if_neg hdb] at h
    simp only [List.cons_append, List.cons.injEq] at h
    have := h.1
    omega
  · rw [if_neg hcb, if_pos hdb] at h
    simp only [List.cons_append, List.cons.injEq] at h
    have := h.1
    omega
  · rw [if_neg hcb, if_neg hdb] at h
    simp only [List.cons_append, List.cons.injEq] at h
    obtain ⟨e1, e2, exy⟩ := h
    refine ⟨char_eq_of_toNat ?_, exy⟩
    omega

theorem utf16Encode_ne_nil (c : Char) : utf16Encode c ≠ [] := by
  unfold utf16Encode
  by_cases h : c.toNat < 65536 <;> simp [h]

theorem utf16_flat_inj :
    ∀ cs ds : List Char,
      cs.flatMap utf16Encode = ds.flatMap utf16Encode → cs = ds
  | [], [], _ => rfl
  | [], d :: ds, h => by
    rw [List.flatMap_nil, List.flatMap_cons] at h
    rcases e : utf16Encode d with _ | ⟨u, us⟩
    · exact absurd e (utf16Encode_ne_nil d)
    · rw [e] at h
      exact absurd h.symm (by simp)
  | c :: cs, [], h => by
    rw [List.flatMap_nil, List.flatMap_cons] at h
    rcases e : utf16Encode c with _ | ⟨u, us⟩
    · exact absurd e (utf16Encode_ne_nil c)
    · rw [e] at h
      exact absurd h (by simp)
  | c :: cs, d :: ds, h => by
    rw [List.flatMap_cons, List.flatMap_cons] at h
    obtain ⟨hcd, hrest⟩ := utf16Encode_prefix_inj c d _ _ h
    rw [hcd, utf16_flat_inj cs ds hrest]

theorem utf16Units_inj {a b : String} (h : utf16Units a = utf16Units b) : a = b := by
  have hd : a.data = b.data := utf16_flat_inj a.data b.data h
  cases a; cases b; simp_all

/-! ### The key order is a decidable total antisymmetric preorder -/

instance : IsTotal String jsKeyLe where
  total a b := by
    unfold jsKeyLe
    rcases hb : unitsLt (utf16Units b) (utf16Units a) with _ | _
    · exact Or.inl rfl
    · exact Or.inr (unitsLt_asymm _ _ hb)

instance : IsTrans String jsKeyLe where
  trans a b c h1 h2 := by
    unfold jsKeyLe at h1 h2 ⊢
    rcases hca : unitsLt (utf16Units c) (utf16Units a) with _ | _
    · rfl
    · rcases hbc : unitsLt (utf16Units b) (utf16Units c) with _ | _
      · have heq := unitsLt_connex _ _ hbc h2
        rw [← heq] at hca
        simp [h1] at hca
      · have hba := unitsLt_trans _ _ _ hbc hca
        simp [h1] at hba

instance : IsAntisymm String jsKeyLe where
  antisymm a b h1 h2 := utf16Units_inj (unitsLt_connex _ _ h2 h1)

/-! ### Canonical-mapping facts -/

/-- Assignment never changes the key list except by appending a new
key. -/
theorem objSet_map_fst (m : List (String × String)) (k v : String) :
    (objSet m k v).map Prod.fst =
      if m.any (fun p => p.1 == k) then m.map Prod.fst
      else m.map Prod.fst ++ [k] := by
  unfold objSet
  split_ifs with h
  · rw [List.map_map]
    apply List.map_congr_left
    intro p _
    by_cases hp : p.1 = k
    · simp [hp]
    · simp [hp]
  · simp

theorem objSet_keys_nodup {m : List (String × String)} (k v : String)
    (h : (m.map Prod.fst).Nodup) : ((objSet m k v).map Prod.fst).Nodup := by
  rw [objSet_map_fst]
  split_ifs with hx
  · exact h
  · have hk : k ∉ m.map Prod.fst := by
      intro hmem
      obtain ⟨p, hp, he⟩ := List.mem_map.mp hmem
      have : m.any (fun p => p.1 == k) = true :=
        List.any_eq_true.mpr ⟨p, hp, by simp [he]⟩
      simp [this] at hx
    simp [List.nodup_append, h, hk]

/-- Assigning an absent key appends the pair. -/
theorem objSet_not_mem {m : List (String × String)} {k : String} (v : String)
    (h : k ∉ m.map Prod.fst) : objSet m k v = m ++ [(k, v)] := by
  unfold objSet
  rw [if_neg]
  intro hany
  rw [List.any_eq_true] at hany
  obtain ⟨p, hp, he⟩ := hany
  exact h (List.mem_map.mpr ⟨p, hp, by simpa using he⟩)

theorem objExtend_keys_nodup {m : List (String × String)} (ps : List (String × String))
    (h : (m.map Prod.fst).Nodup) : ((objExtend m ps).map Prod.fst).Nodup := by
  induction ps generalizing m with
  | nil => exact h
  | cons p ps ih => exact ih (objSet_keys_nodup p.1 p.2 h)

/-- The canonical mapping has pairwise distinct keys. -/
theorem canonicalMap_keys_nodup (params : List Parameter) :
    ((canonicalMap params).map Prod.fst).Nodup := by
  suffices hs : ∀ (ps : List Parameter) (m : List (String × String)),
      (m.map Prod.fst).Nodup →
      ((ps.foldl (fun acc p => objExtend acc p.serialize) m).map Prod.fst).Nodup by
    exact hs params [] (by simp)
  intro ps
  induction ps with
  | nil => intro m h; exact h
  | cons p ps ih => intro m h; exact ih _ (objExtend_keys_nodup _ h)

/-- Extending with pairs whose keys are fresh is plain concatenation. -/
theorem objExtend_disjoint :
    ∀ {ps m : List (String × String)},
      ((m ++ ps).map Prod.fst).Nodup → objExtend m ps = m ++ ps := by
  intro ps
  induction ps with
  | nil => intro m _; simp [objExtend]
  | cons p ps ih =>
    intro m hnd
    have hp : p.1 ∉ m.map Prod.fst := by
      rw [List.map_append, List.nodup_append] at hnd
      intro hmem
      exact hnd.2.2 hmem (by simp)
    show objExtend (objSet m p.1 p.2) ps = m ++ p :: ps
    rw [objSet_not_mem p.2 hp]
    have hshape : m ++ p :: ps = (m ++ [(p.1, p.2)]) ++ ps := by simp
    rw [hshape] at hnd ⊢
    exact ih hnd

/-- When all serialized keys are pairwise distinct, the canonical mapping
is the plain concatenation of all serializations. -/
theorem canonicalMap_eq_flat (params : List Parameter)
    (h : ((params.flatMap Parameter.serialize).map Prod.fst).Nodup) :
    canonicalMap params = params.flatMap Parameter.serialize := by
  suffices hs : ∀ (ps : List Parameter) (m : List (String × String)),
      ((m ++ ps.flatMap Parameter.serialize).map Prod.fst).Nodup →
      ps.foldl (fun acc p => objExtend acc p.serialize) m =
        m ++ ps.flatMap Parameter.serialize by
    have := hs params [] (by simpa using h)
    simpa using this
  intro ps
  induction ps with
  | nil => intro m _; simp
  | cons p ps ih =>
    intro m hm
    rw [List.flatMap_cons] at hm
    rw [show m ++ (p.serialize ++ ps.flatMap Parameter.serialize) =
        (m ++ p.serialize) ++ ps.flatMap Parameter.serialize by simp] at hm
    show ps.foldl _ (objExtend m p.serialize) = _
    rw [objExtend_disjoint ((List.Nodup.sublist
      (List.Sublist.map Prod.fst (List.sublist_append_left _ _)) hm))]
    rw [ih _ hm]
    simp [List.flatMap_cons]

/-! ### Lookup facts -/

theorem lookup_cons (b : String) (es : List (String × String)) (a k : String) :
    List.lookup a ((k, b) :: es) = if a = k then some b else List.lookup a es := by
  by_cases h : a = k
  · simp [List.lookup, h]
  · have hb : (a == k) = false := by simp [h]
    simp [List.lookup, hb, h]

theorem lookup_map_replace {k v : String} :
    ∀ m : List (String × String), m.any (fun p => p.1 == k) = true →
      List.lookup k (m.map (fun p => if p.1 == k then (k, v) else p)) = some v
  | [], h => by simp at h
  | p :: t, h => by
    by_cases hp : p.1 = k
    · rw [List.map_cons, if_pos (by simp [hp]), lookup_cons, if_pos rfl]
    · rw [List.map_cons, if_neg (by simp [hp])]
      have ht : t.any (fun q => q.1 == k) = true := by
        rcases List.any_eq_true.mp h with ⟨q, hq, he⟩
        rcases List.mem_cons.mp hq with rfl | hq'
        · exact absurd (by simpa using he) hp
        · exact List.any_eq_true.mpr ⟨q, hq', he⟩
      rcases p with ⟨pk, pv⟩
      rw [lookup_cons, if_neg (fun he => hp (by simpa using he.symm))]
      exact lookup_map_replace t ht

theorem lookup_append_of_not_mem {k : String} :
    ∀ {m : List (String × String)}, k ∉ m.map Prod.fst →
      ∀ rest, List.lookup k (m ++ rest) = List.lookup k rest := by
  intro m
  induction m with
  | nil => intro _ rest; simp
  | cons p t ih =>
    intro h rest
    rcases p with ⟨pk, pv⟩
    rw [List.cons_append, lookup_cons, if_neg (by simp at h; exact h.1)]
    exact ih (by simp at h ⊢; exact h.2) rest

/-- Assignment makes the assigned value the one looked up. -/
theorem lookup_objSet_self (m : List (String × String)) (k v : String) :
    List.lookup k (objSet m k v) = some v := by
  unfold objSet
  split_ifs with h
  · exact lookup_map_replace m h
  · have hk : k ∉ m.map Prod.fst := by
      intro hmem
      obtain ⟨p, hp, he⟩ := List.mem_map.mp hmem
      have : m.any (fun p => p.1 == k) = true :=
        List.any_eq_true.mpr ⟨p, hp, by simp [he]⟩
      simp [this] at h
    rw [lookup_append_of_not_mem hk, lookup_cons, if_pos rfl]

/-- A successful lookup is membership. -/
theorem mem_of_lookup_some {k v : String} :
    ∀ {m : List (String × String)}, List.lookup k m = some v → (k, v) ∈ m := by
  intro m
  induction m with
  | nil => intro h; simp [List.lookup] at h
  | cons p t ih =>
    intro h
    rcases p with ⟨pk, pv⟩
    rw [lookup_cons] at h
    split_ifs at h with he
    · subst he
      obtain rfl : pv = v := by injection h
      exact List.mem_cons_self _ _
    · exact List.mem_cons_of_mem _ (ih h)

/-- A key of the mapping looks up to its unique value when keys are
distinct; pairing the sorted key list with lookups reproduces the
pair list. -/
theorem map_pair_lookup_eq_self :
    ∀ {m : List (String × String)}, (m.map Prod.fst).Nodup →
      (m.map Prod.fst).map (fun k => (k, lookupD m k)) = m := by
  intro m
  induction m with
  | nil => intro _; rfl
  | cons p t ih =>
    intro h
    rcases p with ⟨pk, pv⟩
    rw [List.map_cons, List.map_cons]
    rw [List.map_cons, List.nodup_cons] at h
    congr 1
    · unfold lookupD
      rw [lookup_cons, if_pos rfl]
      rfl
    · have hstep : (t.map Prod.fst).map (fun k => (k, lookupD ((pk, pv) :: t) k)) =
          (t.map Prod.fst).map (fun k => (k, lookupD t k)) := by
        apply List.map_congr_left
        intro a ha
        unfold lookupD
        rw [lookup_cons, if_neg]
        intro hek
        exact h.1 (hek ▸ ha)
      rw [hstep, ih h.2]

/-! ### Sorting the pairs versus sorting the keys -/

/-- Order on pairs by their keys. -/
def pairLe (p q : String × String) : Prop := jsKeyLe p.1 q.1

instance : DecidableRel pairLe := fun _ _ => instDecidableEqBool _ _

instance : IsTotal (String × String) pairLe where
  total p q := @IsTotal.total String jsKeyLe inferInstance p.1 q.1

instance : IsTrans (String × String) pairLe where
  trans p q r h1 h2 := @IsTrans.trans String jsKeyLe inferInstance p.1 q.1 r.1 h1 h2

/-- Sorted key lists are unique up to permutation. -/
theorem sorted_keys_unique {l₁ l₂ : List String} (hp : l₁.Perm l₂)
    (h1 : List.Sorted jsKeyLe l₁) (h2 : List.Sorted jsKeyLe l₂) : l₁ = l₂ :=
  List.eq_of_perm_of_sorted hp h1 h2

/-- Two pair lists that are permutations of each other, have the same key
list, and have distinct keys, are equal. -/
theorem eq_of_perm_of_map_fst_eq :
    ∀ {l₁ l₂ : List (String × String)}, l₁.Perm l₂ →
      l₁.map Prod.fst = l₂.map Prod.fst → (l₁.map Prod.fst).Nodup → l₁ = l₂ := by
  intro l₁
  induction l₁ with
  | nil =>
    intro l₂ hp _ _
    exact hp.nil_eq
  | cons p t ih =>
    intro l₂ hp hk hn
    cases l₂ with
    | nil => exact absurd hp.length_eq (by simp)
    | cons q t₂ =>
      rw [List.map_cons, List.map_cons, List.cons.injEq] at hk
      rw [List.map_cons, List.nodup_cons] at hn
      have hpq : p = q := by
        have hpmem : p ∈ q :: t₂ := hp.mem_iff.mp (by simp)
        rcases List.mem_cons.mp hpmem with h | h
        · exact h
        · exfalso
          apply hn.1
          rw [hk.2]
          exact List.mem_map.mpr ⟨p, h, hk.1.symm ▸ rfl⟩
      subst hpq
      rw [ih hp.cons_inv hk.2 hn.2]

/-- Sorting by keys is invariant under permutation when keys are
distinct. -/
theorem insertionSort_pairs_eq {m₁ m₂ : List (String × String)}
    (hperm : m₁.Perm m₂) (hnd : (m₁.map Prod.fst).Nodup) :
    List.insertionSort pairLe m₁ = List.insertionSort pairLe m₂ := by
  have h1 : (List.insertionSort pairLe m₁).Perm (List.insertionSort pairLe m₂) :=
    (List.perm_insertionSort _ _).trans (hperm.trans (List.perm_insertionSort _ _).symm)
  have hk : (List.insertionSort pairLe m₁).map Prod.fst =
      (List.insertionSort pairLe m₂).map Prod.fst := by
    apply sorted_keys_unique (h1.map Prod.fst)
    · exact List.pairwise_map.mpr (List.sorted_insertionSort pairLe m₁)
    · exact List.pairwise_map.mpr (List.sorted_insertionSort pairLe m₂)
  apply eq_of_perm_of_map_fst_eq h1 hk
  have hkp : ((List.insertionSort pairLe m₁).map Prod.fst).Perm (m₁.map Prod.fst) :=
    (List.perm_insertionSort pairLe m₁).map Prod.fst
  exact hkp.nodup_iff.mpr hnd

/-- Sorting the keys and pairing each with its looked-up value is the
same as sorting the pairs by key. -/
theorem sortKeys_pair_lookup (m : List (String × String))
    (hnd : (m.map Prod.fst).Nodup) :
    (sortKeys (m.map Prod.fst)).map (fun k => (k, lookupD m k)) =
      List.insertionSort pairLe m := by
  have hL : ((sortKeys (m.map Prod.fst)).map (fun k => (k, lookupD m k))).map Prod.fst =
      sortKeys (m.map Prod.fst) := by
    rw [List.map_map]
    have hid : (Prod.fst ∘ fun k : String => (k, lookupD m k)) = fun k => k := rfl
    rw [hid, List.map_id']
  have hperm : ((sortKeys (m.map Prod.fst)).map (fun k => (k, lookupD m k))).Perm
      (List.insertionSort pairLe m) := by
    have h1 : (sortKeys (m.map Prod.fst)).Perm (m.map Prod.fst) :=
      List.perm_insertionSort _ _
    have h2 := h1.map (fun k => (k, lookupD m k))
    rw [map_pair_lookup_eq_self hnd] at h2
    exact h2.trans (List.perm_insertionSort pairLe m).symm
  apply eq_of_perm_of_map_fst_eq hperm
  · rw [hL]
    apply sorted_keys_unique
    · have := hperm.map Prod.fst
      rw [hL] at this
      exact this
    · exact List.sorted_insertionSort _ _
    · exact List.pairwise_map.mpr (List.sorted_insertionSort pairLe m)
  · rw [hL]
    exact ((List.perm_insertionSort jsKeyLe _).nodup_iff).mpr hnd

/-! ### Unfolding lemmas for the let-bound definitions -/

theorem getStringToSign_def (params : List Parameter) (host endpoint : String) :
    getStringToSign params host endpoint =
      joinSep "\n" ["POST", host, endpoint,
        joinSep "&" ((sortKeys ((canonicalMap params).map Prod.fst)).map
          (fun k => k ++ "=" ++ urlEncode (lookupD (canonicalMap params) k)))] := rfl

theorem getQueryString_def (params : List Parameter) :
    getQueryString params =
      joinSep "&" ((canonicalMap params).map
        (fun p => p.1 ++ "=" ++ urlEncode p.2)) := rfl

/-- The string-to-sign, expressed over the key-sorted pair list. -/
theorem getStringToSign_sorted_pairs (params : List Parameter) (host endpoint : String) :
    getStringToSign params host endpoint =
      joinSep "\n" ["POST", host, endpoint,
        joinSep "&" ((List.insertionSort pairLe (canonicalMap params)).map
          (fun p => p.1 ++ "=" ++ urlEncode p.2))] := by
  rw [getStringToSign_def]
  congr 2
  rw [← sortKeys_pair_lookup _ (canonicalMap_keys_nodup params), List.map_map]
  rfl

theorem getSignature_def (hmacSha256Hex : String → String → String) (r : Request) :
    r.getSignature hmacSha256Hex =
      ⟨padMod4 (hexStrToBase64 (hmacSha256Hex r.credentials.secretKey
        (getStringToSign r.parameters r.credentials.host r.endpoint)).data)⟩ := rfl

/-- Claim C1 (amended): for every Request the string-to-sign is exactly
four newline-joined segments — the literal `POST`, the credentials' host,
the endpoint path, and the `&`-joined `key=value` pairs of the canonical
mapping — with the pairs ordered by lexicographic comparison of the keys'
UTF-16 code-unit sequences (JavaScript's default sort order), independent
of the parameters' insertion order.  This coincides with byte-wise order
unless a key mixes supplementary-plane characters with characters in
`U+E000-U+FFFF`; the original byte-wise wording fails there (see the
counterexample). -/
theorem c1_stringToSign_four_segments (params : List Parameter)
    (host endpoint : String) :
    getStringToSign params host endpoint =
      "POST" ++ "\n" ++ host ++ "\n" ++ endpoint ++ "\n" ++
        joinSep "&" ((List.insertionSort pairLe (canonicalMap params)).map
          (fun p => p.1 ++ "=" ++ urlEncode p.2)) := by
  rw [getStringToSign_sorted_pairs]
  show "POST" ++ "\n" ++
      (host ++ "\n" ++ (endpoint ++ "\n" ++ joinSep "&" _)) = _
  simp only [String.append_assoc]

/-- Claim C1 as stated is refuted at this request: the code sorts keys by
UTF-16 code units, so the key `U+10000` (units `D800 DC00`) precedes the
key `U+E000` (unit `E000`), while byte-wise (UTF-8) order puts `U+E000`
(bytes `EE 80 80`) before `U+10000` (bytes `F0 90 80 80`). -/
theorem c1_counterexample :
    getStringToSign [.string (String.mk [Char.ofNat 65536]) "1",
        .string (String.mk [Char.ofNat 57344]) "2"] "h" "/e" ≠
      stringToSignByteSorted [.string (String.mk [Char.ofNat 65536]) "1",
        .string (String.mk [Char.ofNat 57344]) "2"] "h" "/e" := by decide

/-- Claim C5 (amended): for parameter sequences whose serialized keys are
pairwise distinct, the string-to-sign is byte-identical across any two
insertion orders of the same parameters, and the signature — a pure
function of the credentials and the string-to-sign — is likewise
identical.  (With duplicate keys, last-write-wins makes the canonical
mapping insertion-order-sensitive; see the counterexample.) -/
theorem c5_sorting_determinism (P Q : List Parameter) (host endpoint : String)
    (creds : Credentials) (hperm : P.Perm Q)
    (hnd : ((P.flatMap Parameter.serialize).map Prod.fst).Nodup) :
    getStringToSign P host endpoint = getStringToSign Q host endpoint ∧
    ∀ hmacSha256Hex : String → String → String,
      Request.getSignature hmacSha256Hex ⟨endpoint, creds, P⟩ =
        Request.getSignature hmacSha256Hex ⟨endpoint, creds, Q⟩ := by
  have hQnd : ((Q.flatMap Parameter.serialize).map Prod.fst).Nodup := by
    have hp2 := (hperm.flatMap_right Parameter.serialize).map Prod.fst
    exact hp2.nodup_iff.mp hnd
  have hsts : ∀ h e : String, getStringToSign P h e = getStringToSign Q h e := by
    intro h e
    rw [getStringToSign_sorted_pairs, getStringToSign_sorted_pairs,
      canonicalMap_eq_flat P hnd, canonicalMap_eq_flat Q hQnd,
      insertionSort_pairs_eq (hperm.flatMap_right Parameter.serialize) hnd]
  refine ⟨hsts host endpoint, fun hmac => ?_⟩
  rw [getSignature_def, getSignature_def]
  show String.mk (padMod4 (hexStrToBase64 (hmac creds.secretKey
      (getStringToSign P creds.host endpoint)).data)) = _
  rw [hsts creds.host endpoint]

/-- Claim C5 as stated is refuted at this pair of runs: the two sequences
hold the same parameters in different insertion orders, yet the
strings-to-sign differ, because both parameters serialize to the key `A`
and the later write wins. -/
theorem c5_counterexample :
    ([Parameter.string "A" "1", Parameter.string "A" "2"]).Perm
        [Parameter.string "A" "2", Parameter.string "A" "1"] ∧
    getStringToSign [Parameter.string "A" "1", Parameter.string "A" "2"] "h" "/e" ≠
      getStringToSign [Parameter.string "A" "2", Parameter.string "A" "1"] "h" "/e" := by
  constructor
  · exact List.Perm.swap _ _ _
  · decide

/-- Witness for C5 at a concrete reordering with distinct keys. -/
theorem c5_sorting_determinism_witness :
    getStringToSign [Parameter.string "B" "2", Parameter.string "A" "1"] "h" "/e" =
      getStringToSign [Parameter.string "A" "1", Parameter.string "B" "2"] "h" "/e" :=
  (c5_sorting_determinism _ _ "h" "/e" ⟨"s", "a", "k", "h"⟩
    (List.Perm.swap _ _ _) (by decide)).1

/-! ### Occurrence of pairs inside the rendered strings -/

/-- Every element of a joined list occurs literally inside the join. -/
theorem joinSep_mem_split (sep : String) :
    ∀ {l : List String} {x : String}, x ∈ l →
      ∃ pre post : String, joinSep sep l = pre ++ x ++ post := by
  intro l
  induction l with
  | nil => intro x h; simp at h
  | cons a t ih =>
    intro x h
    rcases List.mem_cons.mp h with rfl | hx
    · cases t with
      | nil =>
        refine ⟨"", "", ?_⟩
        show joinSep sep [x] = "" ++ x ++ ""
        simp [joinSep]
      | cons b t' =>
        refine ⟨"", sep ++ joinSep sep (b :: t'), ?_⟩
        show joinSep sep (x :: b :: t') = "" ++ x ++ (sep ++ joinSep sep (b :: t'))
        rw [joinSep]
        simp [String.append_assoc]
    · cases t with
      | nil => simp at hx
      | cons b t' =>
        obtain ⟨pre, post, hp⟩ := ih hx
        refine ⟨a ++ sep ++ pre, post, ?_⟩
        rw [joinSep, hp]
        simp [String.append_assoc]

/-- A key absent from a mapping looks up to nothing. -/
theorem lookup_eq_none_of_not_mem {k : String} :
    ∀ {m : List (String × String)}, k ∉ m.map Prod.fst →
      List.lookup k m = none := by
  intro m
  induction m with
  | nil => intro _; rfl
  | cons p t ih =>
    intro h
    rcases p with ⟨pk, pv⟩
    rw [lookup_cons, if_neg (by simp at h; exact h.1)]
    exact ih (by simp at h ⊢; exact h.2)

/-- Keys of the canonical mapping all come from some serialization. -/
theorem objExtend_keys_subset :
    ∀ (ps m : List (String × String)) (k : String),
      k ∈ (objExtend m ps).map Prod.fst →
      k ∈ m.map Prod.fst ∨ k ∈ ps.map Prod.fst
  | [], _, k => fun h => Or.inl h
  | p :: ps, m, k => fun h => by
    rcases objExtend_keys_subset ps (objSet m p.1 p.2) k h with h1 | h1
    · rw [objSet_map_fst] at h1
      split_ifs at h1 with hc
      · exact Or.inl h1
      · rcases List.mem_append.mp h1 with h2 | h2
        · exact Or.inl h2
        · right
          simp at h2
          simp [h2]
    · right
      simp [h1]

theorem canonicalMap_keys_subset (params : List Parameter) (k : String)
    (h : k ∈ (canonicalMap params).map Prod.fst) :
    k ∈ (params.flatMap Parameter.serialize).map Prod.fst := by
  suffices hs : ∀ (ps : List Parameter) (m : List (String × String)),
      k ∈ ((ps.foldl (fun acc p => objExtend acc p.serialize) m).map Prod.fst) →
      k ∈ m.map Prod.fst ∨ k ∈ (ps.flatMap Parameter.serialize).map Prod.fst by
    rcases hs params [] h with h1 | h1
    · simp at h1
    · exact h1
  intro ps
  induction ps with
  | nil => intro m hm; exact Or.inl hm
  | cons p ps ih =>
    intro m hm
    rcases ih (objExtend m p.serialize) hm with h1 | h1
    · rcases objExtend_keys_subset p.serialize m k h1 with h2 | h2
      · exact Or.inl h2
      · right
        rw [List.flatMap_cons, List.map_append]
        exact List.mem_append.mpr (Or.inl h2)
    · right
      rw [List.flatMap_cons, List.map_append]
      exact List.mem_append.mpr (Or.inr h1)

/-- Appending one parameter extends the mapping with its pairs. -/
theorem canonicalMap_append_one (params : List Parameter) (p : Parameter) :
    canonicalMap (params ++ [p]) = objExtend (canonicalMap params) p.serialize := by
  unfold canonicalMap
  rw [List.foldl_append]
  rfl

/-- Every canonical pair occurs literally, with raw key and encoded
value, inside the query string. -/
theorem queryString_contains_pair (params : List Parameter) (k v : String)
    (hmem : (k, v) ∈ canonicalMap params) :
    ∃ pre post, getQueryString params = pre ++ (k ++ "=" ++ urlEncode v) ++ post := by
  rw [getQueryString_def]
  exact joinSep_mem_split "&" (List.mem_map.mpr ⟨(k, v), hmem, rfl⟩)

/-- Every canonical pair occurs literally, with raw key and encoded
value, inside the string-to-sign. -/
theorem stringToSign_contains_pair (params : List Parameter) (host endpoint k v : String)
    (hmem : (k, v) ∈ canonicalMap params) :
    ∃ pre post, getStringToSign params host endpoint =
      pre ++ (k ++ "=" ++ urlEncode v) ++ post := by
  rw [getStringToSign_sorted_pairs]
  have hmem2 : (k, v) ∈ List.insertionSort pairLe (canonicalMap params) :=
    (List.mem_insertionSort pairLe).mpr hmem
  obtain ⟨pre, post, hp⟩ :=
    joinSep_mem_split "&" (List.mem_map.mpr ⟨(k, v), hmem2, rfl⟩)
  refine ⟨"POST" ++ "\n" ++ (host ++ "\n" ++ (endpoint ++ "\n" ++ pre)), post, ?_⟩
  show "POST" ++ "\n" ++
      (host ++ "\n" ++ (endpoint ++ "\n" ++ joinSep "&" _)) = _
  rw [hp]
  simp [String.append_assoc]

/-- Claim C3 (amended): in both the string-to-sign and the final query
string, standard URI-component percent-encoding with the four additional
forced characters is applied to every VALUE of the canonical mapping,
while every KEY appears verbatim (unencoded): each canonical pair
`(k, v)` contributes the literal fragment `k ++ "=" ++ urlEncode v`.
The original claim that keys are percent-encoded as well is refuted by
the counterexample. -/
theorem c3_values_encoded_keys_raw (params : List Parameter)
    (host endpoint k v : String) (hmem : (k, v) ∈ canonicalMap params) :
    (∃ pre post, getQueryString params = pre ++ (k ++ "=" ++ urlEncode v) ++ post) ∧
    (∃ pre post, getStringToSign params host endpoint =
      pre ++ (k ++ "=" ++ urlEncode v) ++ post) :=
  ⟨queryString_contains_pair params k v hmem, stringToSign_contains_pair params host endpoint k v hmem⟩

/-- Claim C3 as stated is refuted at this request: the key `a*` appears
verbatim in the query string and the string-to-sign — not as its
percent-encoded form `a%2A`, which encoding the key would produce. -/
theorem c3_counterexample :
    getQueryString [.string "a*" "v"] = "a*=v" ∧
    getStringToSign [.string "a*" "v"] "h" "/e" = "POST\nh\n/e\na*=v" ∧
    urlEncode "a*" ≠ "a*" := by
  refine ⟨by decide, by decide, by decide⟩

/-- Witness for C3 at a concrete pair with a key and value needing
encoding. -/
theorem c3_values_encoded_keys_raw_witness :
    (∃ pre post, getQueryString [.string "a*" "v x"] =
      pre ++ ("a*" ++ "=" ++ urlEncode "v x") ++ post) ∧
    (∃ pre post, getStringToSign [.string "a*" "v x"] "h" "/e" =
      pre ++ ("a*" ++ "=" ++ urlEncode "v x") ++ post) :=
  c3_values_encoded_keys_raw [.string "a*" "v x"] "h" "/e" "a*" "v x" (by decide)

/-- Claim C4 (amended): for every Request none of whose parameters
serializes a `Signature` key — true of every parameter sequence the
library's endpoint methods build on a fresh Request — the canonical
mapping used for signing contains no `Signature` key, and after `send`
the transmitted query string's mapping contains the `Signature` key
exactly once, bound to the computed signature, whose pair occurs
literally in the transmitted query string.  (An arbitrary parameter
sequence may itself contain a `Signature` parameter, refuting the
original universally quantified claim; see the counterexample.) -/
theorem c4_signature_excluded_then_added (r : Request)
    (hmacSha256Hex : String → String → String)
    (h : ∀ p ∈ r.parameters, "Signature" ∉ (p.serialize.map Prod.fst)) :
    List.lookup "Signature" (canonicalMap r.parameters) = none ∧
    ((canonicalMap (r.send hmacSha256Hex).1.parameters).map Prod.fst).count
      "Signature" = 1 ∧
    List.lookup "Signature" (canonicalMap (r.send hmacSha256Hex).1.parameters) =
      some (r.getSignature hmacSha256Hex) ∧
    ∃ pre post, (r.send hmacSha256Hex).2 =
      pre ++ ("Signature" ++ "=" ++ urlEncode (r.getSignature hmacSha256Hex)) ++ post := by
  have hnotmem : "Signature" ∉ (canonicalMap r.parameters).map Prod.fst := by
    intro hmem
    have hflat := canonicalMap_keys_subset r.parameters "Signature" hmem
    rcases List.mem_map.mp hflat with ⟨pair, hpair, hfst⟩
    rcases List.mem_flatMap.mp hpair with ⟨p, hp, hpairp⟩
    exact h p hp (List.mem_map.mpr ⟨pair, hpairp, hfst⟩)
  have hsent : (r.send hmacSha256Hex).1.parameters =
      r.parameters ++ [.string "Signature" (r.getSignature hmacSha256Hex)] := rfl
  have hmap : canonicalMap (r.send hmacSha256Hex).1.parameters =
      canonicalMap r.parameters ++
        [("Signature", r.getSignature hmacSha256Hex)] := by
    rw [hsent, canonicalMap_append_one]
    show objSet (canonicalMap r.parameters) "Signature" _ = _
    exact objSet_not_mem _ hnotmem
  refine ⟨lookup_eq_none_of_not_mem hnotmem, ?_, ?_, ?_⟩
  · rw [hmap, List.map_append, List.count_append]
    rw [List.count_eq_zero.mpr hnotmem]
    rfl
  · rw [hmap]
    rw [lookup_append_of_not_mem hnotmem, lookup_cons, if_pos rfl]
  · have hq : (r.send hmacSha256Hex).2 =
        getQueryString (r.send hmacSha256Hex).1.parameters := rfl
    rw [hq]
    apply queryString_contains_pair
    rw [hmap]
    exact List.mem_append.mpr (Or.inr (by simp))

/-- Claim C4 as stated is refuted at this parameter sequence: a sequence
already holding a `Signature` parameter gives a canonical mapping for
signing that does contain the `Signature` key. -/
theorem c4_counterexample :
    List.lookup "Signature" (canonicalMap [Parameter.string "Signature" "x"]) =
      some "x" := by decide

/-- Witness for C4 at a concrete request. -/
theorem c4_signature_excluded_then_added_witness :
    List.lookup "Signature"
      (canonicalMap [Parameter.string "Action" "a"]) = none ∧
    ((canonicalMap (Request.send (fun _ _ => "00")
        ⟨"/e", ⟨"s", "a", "k", "h"⟩, [Parameter.string "Action" "a"]⟩).1.parameters).map
      Prod.fst).count "Signature" = 1 ∧
    List.lookup "Signature"
      (canonicalMap (Request.send (fun _ _ => "00")
        ⟨"/e", ⟨"s", "a", "k", "h"⟩, [Parameter.string "Action" "a"]⟩).1.parameters) =
      some (Request.getSignature (fun _ _ => "00")
        ⟨"/e", ⟨"s", "a", "k", "h"⟩, [Parameter.string "Action" "a"]⟩) ∧
    ∃ pre post, (Request.send (fun _ _ => "00")
        ⟨"/e", ⟨"s", "a", "k", "h"⟩, [Parameter.string "Action" "a"]⟩).2 =
      pre ++ ("Signature" ++ "=" ++ urlEncode (Request.getSignature (fun _ _ => "00")
        ⟨"/e", ⟨"s", "a", "k", "h"⟩, [Parameter.string "Action" "a"]⟩)) ++ post :=
  c4_signature_excluded_then_added
    ⟨"/e", ⟨"s", "a", "k", "h"⟩, [Parameter.string "Action" "a"]⟩
    (fun _ _ => "00") (by decide)

/-- Claim C10: `send()` appends the computed Signature as an ordinary
parameter to the Request's own parameter sequence, so any subsequent
canonicalization of the same Request — such as a second `send` — builds
its string-to-sign over a mapping that binds `Signature` to the previous
signature: the pair occurs literally in the second string-to-sign, which
therefore signs over the first signature. -/
theorem c10_second_send_signs_over_first (r : Request)
    (hmacSha256Hex : String → String → String) :
    (r.send hmacSha256Hex).1.parameters =
      r.parameters ++ [.string "Signature" (r.getSignature hmacSha256Hex)] ∧
    List.lookup "Signature" (canonicalMap (r.send hmacSha256Hex).1.parameters) =
      some (r.getSignature hmacSha256Hex) ∧
    ∃ pre post,
      getStringToSign (r.send hmacSha256Hex).1.parameters
          r.credentials.host r.endpoint =
        pre ++ ("Signature" ++ "=" ++
          urlEncode (r.getSignature hmacSha256Hex)) ++ post := by
  have hsent : (r.send hmacSha256Hex).1.parameters =
      r.parameters ++ [.string "Signature" (r.getSignature hmacSha256Hex)] := rfl
  have hlook : List.lookup "Signature"
      (canonicalMap (r.send hmacSha256Hex).1.parameters) =
      some (r.getSignature hmacSha256Hex) := by
    rw [hsent, canonicalMap_append_one]
    exact lookup_objSet_self _ _ _
  exact ⟨hsent, hlook, stringToSign_contains_pair _ _ _ _ _ (mem_of_lookup_some hlook)⟩

/-- Counterexample to claim C8 as stated: the body `<ErrorResponse/>` is
well-formed XML, and xml2js (with `explicitArray: false`) parses it to an
object whose `ErrorResponse` key holds the empty string, so `_.has`
selects the MWS branch; but `result['ErrorResponse']['Error']` is then
`undefined`, and reading `['Message']` on `undefined` throws a
`TypeError` inside the parse callback — the result callback receives no
outcome at all, refuting that exactly one outcome is delivered for every
completed exchange. -/
theorem c8_counterexample :
    classifyResponse (fun _ => .ok (.node [("ErrorResponse", .text "")]))
      (.success "<ErrorResponse/>") = none := rfl

/-- Claim C8, amended: for every completed HTTP exchange at most one
outcome is delivered to the callback, classified as: a transport
(`PostRequest`) error when the network call failed; a parse
(`XMLParsing`) error when the body is not well-formed XML; an MWS error
carrying the value found at `ErrorResponse.Error.Message` (possibly
`undefined`) with the `Error` payload as metadata when the parsed root
is an error report whose `Error` member is present; and success with the
parsed body when no `ErrorResponse` key is present.  When the parsed
root has an `ErrorResponse` key whose `Error` member is `undefined`, the
code throws a `TypeError` reading `Message` and NO outcome is delivered.
A body parsing to `ErrorResponse / Error / Message = "Bad"` yields the
MWS error with message `"Bad"`. -/
theorem c8_outcome_classification (parse : String → ParseOutcome) :
    (∀ e, classifyResponse parse (.failure e) = some (.postRequestError e)) ∧
    (∀ body e, parse body = .failure e →
      classifyResponse parse (.success body) = some (.xmlParsingError e)) ∧
    (∀ body result er e, parse body = .ok result →
      result.get "ErrorResponse" = some er → er.get "Error" = some e →
      classifyResponse parse (.success body) =
        some (.mwsError (e.get "Message") e)) ∧
    (∀ body result er, parse body = .ok result →
      result.get "ErrorResponse" = some er → er.get "Error" = none →
      classifyResponse parse (.success body) = none) ∧
    (∀ body result, parse body = .ok result →
      result.get "ErrorResponse" = none →
      classifyResponse parse (.success body) = some (.success result)) ∧
    (∀ body, parse body = .ok (.node [("ErrorResponse", .node [("Error",
        .node [("Message", .text "Bad")])])]) →
      classifyResponse parse (.success body) =
        some (.mwsError (some (.text "Bad")) (.node [("Message", .text "Bad")]))) := by
  refine ⟨fun e => rfl, ?_, ?_, ?_, ?_, ?_⟩
  · intro body e hp
    simp [classifyResponse, hp]
  · intro body result er e hp her he
    simp [classifyResponse, hp, her, he]
  · intro body result er hp her he
    simp [classifyResponse, hp, her, he]
  · intro body result hp hnone
    simp [classifyResponse, hp, hnone]
  · intro body hp
    simp [classifyResponse, hp, XmlValue.get]

/-- Witness for C8 on the error-report example body. -/
theorem c8_outcome_classification_witness :
    classifyResponse (fun _ => .ok (.node [("ErrorResponse", .node [("Error",
        .node [("Message", .text "Bad")])])])) (.success "<xml>") =
      some (.mwsError (some (.text "Bad")) (.node [("Message", .text "Bad")])) :=
  (c8_outcome_classification _).2.2.2.2.2 "<xml>" rfl

/-! ### The URL encoder as a per-character map (towards claim C6)

`urlEncode` is `encodeURIComponent` followed by five single-character
global replacements; fused, it maps each character independently:
characters of the reduced safe set pass through, all others contribute
the escapes of their UTF-8 bytes. -/

theorem string_append_cancel_right {a b T : String} (h : a ++ T = b ++ T) : a = b := by
  have hd : a.data ++ T.data = b.data ++ T.data := by
    rw [← String.data_append, ← String.data_append, h]
  have h2 := List.append_cancel_right hd
  cases a; cases b; simp_all

theorem string_append_cancel_left {a b T : String} (h : T ++ a = T ++ b) : a = b := by
  have hd : T.data ++ a.data = T.data ++ b.data := by
    rw [← String.data_append, ← String.data_append, h]
  have h2 := List.append_cancel_left hd
  cases a; cases b; simp_all

theorem replaceCharBy_eq_self {t : Char} {r : List Char} :
    ∀ {cs : List Char}, (∀ x ∈ cs, x ≠ t) → replaceCharBy t r cs = cs := by
  intro cs
  induction cs with
  | nil => intro _; rfl
  | cons c cs ih =>
    intro h
    show (if c = t then r else [c]) ++ cs.flatMap _ = c :: cs
    rw [if_neg (h c (by simp))]
    have := ih (fun x hx => h x (by simp [hx]))
    unfold replaceCharBy at this
    rw [this]
    rfl

/-- No character of a percent-escape chunk is one of the five replaced
characters. -/
theorem percent_chunk_not_five {c : Char} {x : Char}
    (h : x ∈ (utf8Bytes c).flatMap percentByte) :
    x ≠ '*' ∧ x ≠ '(' ∧ x ≠ ')' ∧ x ≠ Char.ofNat 39 ∧ x ≠ '!' := by
  have h16 : ∀ m : Nat, hexUpperChar m ≠ '*' ∧ hexUpperChar m ≠ '(' ∧
      hexUpperChar m ≠ ')' ∧ hexUpperChar m ≠ Char.ofNat 39 ∧ hexUpperChar m ≠ '!' := by
    intro m
    have hm : hexUpperChar m = hexUpperChar (m % 16) := by
      unfold hexUpperChar
      congr 1
      omega
    rw [hm]
    have hb16 : m % 16 < 16 := by omega
    revert hb16
    generalize m % 16 = d
    revert d
    decide
  rcases List.mem_flatMap.mp h with ⟨b, _, hx⟩
  unfold percentByte at hx
  simp only [List.mem_cons, List.not_mem_nil, or_false] at hx
  rcases hx with rfl | rfl | rfl
  · exact (by decide)
  · exact h16 _
  · exact h16 _

/-- The reduced safe set is contained in `encodeURIComponent`'s
unescaped set. -/
theorem safe_sub_unescaped {c : Char} (h : urlSafeChar c = true) :
    uriUnescapedChar c = true := by
  unfold urlSafeChar at h
  unfold uriUnescapedChar
  simp only [Bool.or_eq_true, Bool.and_eq_true, decide_eq_true_eq] at h ⊢
  tauto

theorem char_le_toNat {a b : Char} : (a ≤ b) ↔ a.toNat ≤ b.toNat := Iff.rfl

theorem char_lt_toNat {a b : Char} : (a < b) ↔ a.toNat < b.toNat := Iff.rfl

theorem char_eq_toNat {a b : Char} : (a = b) ↔ a.toNat = b.toNat :=
  ⟨fun h => h ▸ rfl, char_eq_of_toNat⟩

/-- A character `encodeURIComponent` keeps but the reduced set rejects is
one of the five forced characters. -/
theorem unescaped_not_safe_is_five {c : Char} (hu : uriUnescapedChar c = true)
    (hs : urlSafeChar c = false) :
    c = '!' ∨ c = '*' ∨ c = Char.ofNat 39 ∨ c = '(' ∨ c = ')' := by
  have hs' : ¬(urlSafeChar c = true) := by simp [hs]
  simp only [uriUnescapedChar, Bool.or_eq_true, Bool.and_eq_true, decide_eq_true_eq] at hu
  simp only [urlSafeChar, Bool.or_eq_true, Bool.and_eq_true, decide_eq_true_eq] at hs'
  push_neg at hs'
  simp only [ne_eq, char_eq_toNat, char_le_toNat, char_lt_toNat] at hu hs' ⊢
  simp only [show ('A').toNat = 65 from rfl, show ('Z').toNat = 90 from rfl,
    show ('a').toNat = 97 from rfl, show ('z').toNat = 122 from rfl,
    show ('0').toNat = 48 from rfl, show ('9').toNat = 57 from rfl,
    show ('-').toNat = 45 from rfl, show ('_').toNat = 95 from rfl,
    show ('.').toNat = 46 from rfl, show ('!').toNat = 33 from rfl,
    show ('~').toNat = 126 from rfl, show ('*').toNat = 42 from rfl,
    show (Char.ofNat 39).toNat = 39 from rfl, show ('(').toNat = 40 from rfl,
    show (')').toNat = 41 from rfl] at hu hs' ⊢
  omega

/-- The five replacements fuse with `encodeURIComponent` into the
per-character encoder. -/
theorem urlEncodeChar_fusion (c : Char) :
    replaceCharBy '!' ['%', '2', '1'] (replaceCharBy (Char.ofNat 39) ['%', '2', '7']
      (replaceCharBy ')' ['%', '2', '9'] (replaceCharBy '(' ['%', '2', '8']
        (replaceCharBy '*' ['%', '2', 'A'] (encodeURIComponentChar c))))) =
    urlEncodeChar c := by
  by_cases hs : urlSafeChar c = true
  · have hu := safe_sub_unescaped hs
    have hne : c ≠ '*' ∧ c ≠ '(' ∧ c ≠ ')' ∧ c ≠ Char.ofNat 39 ∧ c ≠ '!' := by
      refine ⟨?_, ?_, ?_, ?_, ?_⟩ <;>
        exact fun he => absurd (he ▸ hs) (by decide)
    unfold encodeURIComponentChar urlEncodeChar
    rw [if_pos hu, if_pos hs]
    have hone : ∀ (t : Char) (r : List Char), c ≠ t →
        replaceCharBy t r [c] = [c] := by
      intro t r hct
      exact replaceCharBy_eq_self (by simpa using hct)
    rw [hone _ _ hne.1, hone _ _ hne.2.1, hone _ _ hne.2.2.1,
      hone _ _ hne.2.2.2.1, hone _ _ hne.2.2.2.2]
  · have hsf : urlSafeChar c = false := by
      rcases hb : urlSafeChar c with _ | _
      · rfl
      · exact absurd hb hs
    by_cases hu : uriUnescapedChar c = true
    · rcases unescaped_not_safe_is_five hu hsf with rfl | rfl | rfl | rfl | rfl <;>
        decide
    · have huf : uriUnescapedChar c = false := by
        rcases hb : uriUnescapedChar c with _ | _
        · rfl
        · exact absurd hb hu
      unfold encodeURIComponentChar urlEncodeChar
      rw [if_neg (by simp [huf]), if_neg (by simp [hsf])]
      have hchunk : ∀ (t : Char) (r : List Char),
          (t = '*' ∨ t = '(' ∨ t = ')' ∨ t = Char.ofNat 39 ∨ t = '!') →
          replaceCharBy t r ((utf8Bytes c).flatMap percentByte) =
            (utf8Bytes c).flatMap percentByte := by
        intro t r ht
        apply replaceCharBy_eq_self
        intro x hx
        have h5 := percent_chunk_not_five hx
        rcases ht with rfl | rfl | rfl | rfl | rfl
        · exact h5.1
        · exact h5.2.1
        · exact h5.2.2.1
        · exact h5.2.2.2.1
        · exact h5.2.2.2.2
      rw [hchunk _ _ (by simp), hchunk _ _ (by simp), hchunk _ _ (by simp),
        hchunk _ _ (by simp), hchunk _ _ (by simp)]

theorem replaceCharBy_flatMap (t : Char) (r : List Char) (f : Char → List Char)
    (l : List Char) :
    replaceCharBy t r (l.flatMap f) = l.flatMap (fun c => replaceCharBy t r (f c)) := by
  unfold replaceCharBy
  rw [List.flatMap_assoc]

/-- Fused, `urlEncode` is the per-character encoder mapped over the string. -/
theorem urlEncode_fused (s : String) :
    urlEncode s = ⟨s.data.flatMap urlEncodeChar⟩ := by
  show String.mk (replaceCharBy '!' _ (replaceCharBy (Char.ofNat 39) _
    (replaceCharBy ')' _ (replaceCharBy '(' _ (replaceCharBy '*' _
      (encodeURIComponentList s.data)))))) = _
  congr 1
  unfold encodeURIComponentList
  rw [replaceCharBy_flatMap, replaceCharBy_flatMap, replaceCharBy_flatMap,
    replaceCharBy_flatMap, replaceCharBy_flatMap]
  congr 1
  funext c
  exact urlEncodeChar_fusion c

/-! ### Injectivity of the URL encoder -/

theorem utf8Bytes_lt (c : Char) : ∀ b ∈ utf8Bytes c, b < 256 := by
  have h1 := char_toNat_lt c
  simp only [utf8Bytes]
  split_ifs <;> simp <;> omega

theorem utf8Bytes_ne_nil (c : Char) : utf8Bytes c ≠ [] := by
  simp only [utf8Bytes]
  split_ifs <;> simp

/-- UTF-8 encodings are injective. -/
theorem utf8Bytes_inj {c d : Char} (h : utf8Bytes c = utf8Bytes d) : c = d := by
  have hc1 := char_toNat_lt c
  have hd1 := char_toNat_lt d
  simp only [utf8Bytes] at h
  split_ifs at h <;> simp at h <;> exact char_eq_of_toNat (by omega)

/-- The lead byte determines the number of continuation bytes. -/
theorem utf8_length_eq_of_head (c d : Char) (b : Nat) (tc td : List Nat)
    (hc : utf8Bytes c = b :: tc) (hd : utf8Bytes d = b :: td) :
    tc.length = td.length := by
  have hc1 := char_toNat_lt c
  have hd1 := char_toNat_lt d
  simp only [utf8Bytes] at hc hd
  split_ifs at hc hd <;> simp only [List.cons.injEq] at hc hd <;>
    (obtain ⟨hcb, hct⟩ := hc
     obtain ⟨hdb, hdt⟩ := hd
     subst hct
     subst hdt
     simp only [List.length_cons, List.length_nil] <;> omega)

theorem hexUpper_inj : ∀ a < 16, ∀ b < 16, hexUpperChar a = hexUpperChar b → a = b := by
  decide

/-- Percent triples of equal-length byte lists align one to one. -/
theorem percent_flat_inj_of_len :
    ∀ (bs cs : List Nat), bs.length = cs.length →
      (∀ b ∈ bs, b < 256) → (∀ b ∈ cs, b < 256) →
      ∀ X Y : List Char,
        bs.flatMap percentByte ++ X = cs.flatMap percentByte ++ Y →
        bs = cs ∧ X = Y
  | [], [], _, _, _, X, Y, h => ⟨rfl, by simpa using h⟩
  | [], _ :: _, hl, _, _, _, _, _ => by simp at hl
  | _ :: _, [], hl, _, _, _, _, _ => by simp at hl
  | b :: bs, c :: cs, hl, hb, hc, X, Y, h => by
    simp only [List.flatMap_cons, percentByte, List.cons_append, List.append_assoc,
      List.cons.injEq, true_and] at h
    obtain ⟨h1, h2, h3⟩ := h
    have hb0 : b < 256 := hb b (by simp)
    have hc0 : c < 256 := hc c (by simp)
    have hbc : b = c := by
      have e1 := hexUpper_inj (b / 16) (by omega) (c / 16) (by omega) h1
      have e2 := hexUpper_inj (b % 16) (by omega) (c % 16) (by omega) h2
      omega
    subst hbc
    obtain ⟨ht, hXY⟩ := percent_flat_inj_of_len bs cs (by simpa using hl)
      (fun x hx => hb x (by simp [hx])) (fun x hx => hc x (by simp [hx])) X Y h3
    exact ⟨by rw [ht], hXY⟩

/-- An escaped character's chunk determines the character, even followed
by arbitrary text. -/
theorem urlEncodeChar_unsafe_prefix_inj {c d : Char}
    (hc : urlSafeChar c = false) (hd : urlSafeChar d = false) {X Y : List Char}
    (h : urlEncodeChar c ++ X = urlEncodeChar d ++ Y) : c = d ∧ X = Y := by
  unfold urlEncodeChar at h
  rw [if_neg (by simp [hc]), if_neg (by simp [hd])] at h
  rcases ec : utf8Bytes c with _ | ⟨bc, tc⟩
  · exact absurd ec (utf8Bytes_ne_nil c)
  rcases ed : utf8Bytes d with _ | ⟨bd, td⟩
  · exact absurd ed (utf8Bytes_ne_nil d)
  rw [ec, ed] at h
  simp only [List.flatMap_cons, percentByte, List.cons_append, List.append_assoc,
    List.cons.injEq, true_and] at h
  obtain ⟨hb1, hb2, hrest⟩ := h
  have hbc : bc < 256 := utf8Bytes_lt c bc (by rw [ec]; simp)
  have hbd : bd < 256 := utf8Bytes_lt d bd (by rw [ed]; simp)
  have hb : bc = bd := by
    have e1 := hexUpper_inj (bc / 16) (by omega) (bd / 16) (by omega) hb1
    have e2 := hexUpper_inj (bc % 16) (by omega) (bd % 16) (by omega) hb2
    omega
  subst hb
  have hlen : tc.length = td.length := utf8_length_eq_of_head c d bc tc td ec ed
  obtain ⟨hteq, hXY⟩ := percent_flat_inj_of_len tc td hlen
    (fun x hx => utf8Bytes_lt c x (by rw [ec]; simp [hx]))
    (fun x hx => utf8Bytes_lt d x (by rw [ed]; simp [hx])) X Y hrest
  refine ⟨utf8Bytes_inj ?_, hXY⟩
  rw [ec, ed, hteq]

theorem urlEncodeChar_ne_nil (c : Char) : urlEncodeChar c ≠ [] := by
  unfold urlEncodeChar
  split_ifs
  · simp
  · rcases ec : utf8Bytes c with _ | ⟨bc, tc⟩
    · exact absurd ec (utf8Bytes_ne_nil c)
    · simp [percentByte]

/-- One encoded character's contribution determines the character. -/
theorem urlEncodeChar_prefix_inj {c d : Char} {X Y : List Char}
    (h : urlEncodeChar c ++ X = urlEncodeChar d ++ Y) : c = d ∧ X = Y := by
  by_cases hc : urlSafeChar c = true <;> by_cases hd : urlSafeChar d = true
  · unfold urlEncodeChar at h
    rw [if_pos hc, if_pos hd] at h
    simp only [List.cons_append, List.nil_append, List.cons.injEq] at h
    exact h
  · exfalso
    have hdf : urlSafeChar d = false := Bool.eq_false_iff.mpr hd
    unfold urlEncodeChar at h
    rw [if_pos hc, if_neg (by simp [hdf])] at h
    rcases ed : utf8Bytes d with _ | ⟨bd, td⟩
    · exact utf8Bytes_ne_nil d ed
    rw [ed] at h
    simp only [List.flatMap_cons, percentByte, List.cons_append, List.nil_append,
      List.cons.injEq] at h
    have hpc : urlSafeChar '%' = true := h.1 ▸ hc
    exact absurd hpc (by decide)
  · exfalso
    have hcf : urlSafeChar c = false := Bool.eq_false_iff.mpr hc
    unfold urlEncodeChar at h
    rw [if_neg (by simp [hcf]), if_pos hd] at h
    rcases ec : utf8Bytes c with _ | ⟨bc, tc⟩
    · exact utf8Bytes_ne_nil c ec
    rw [ec] at h
    simp only [List.flatMap_cons, percentByte, List.cons_append, List.nil_append,
      List.cons.injEq] at h
    have hpc : urlSafeChar '%' = true := h.1.symm ▸ hd
    exact absurd hpc (by decide)
  · exact urlEncodeChar_unsafe_prefix_inj (Bool.eq_false_iff.mpr hc)
      (Bool.eq_false_iff.mpr hd) h

theorem urlEncodeList_inj :
    ∀ {a b : List Char}, a.flatMap urlEncodeChar = b.flatMap urlEncodeChar → a = b
  | [], [], _ => rfl
  | [], c :: t, h => by
    rw [List.flatMap_nil, List.flatMap_cons] at h
    rcases e : urlEncodeChar c with _ | ⟨x, xs⟩
    · exact absurd e (urlEncodeChar_ne_nil c)
    · rw [e] at h
      exact absurd h (by simp)
  | c :: t, [], h => by
    rw [List.flatMap_nil, List.flatMap_cons] at h
    rcases e : urlEncodeChar c with _ | ⟨x, xs⟩
    · exact absurd e (urlEncodeChar_ne_nil c)
    · rw [e] at h
      exact absurd h (by simp)
  | c :: t, d :: u, h => by
    rw [List.flatMap_cons, List.flatMap_cons] at h
    obtain ⟨hcd, hrest⟩ := urlEncodeChar_prefix_inj h
    rw [hcd, urlEncodeList_inj hrest]

/-- Encoding `urlEncode` is injective: distinct values have distinct encodings. -/
theorem urlEncode_injective {a b : String} (h : urlEncode a = urlEncode b) : a = b := by
  rw [urlEncode_fused, urlEncode_fused] at h
  have hd : a.data.flatMap urlEncodeChar = b.data.flatMap urlEncodeChar :=
    congrArg String.data h
  have hab := urlEncodeList_inj hd
  cases a; cases b; simp_all

/-! ### A changed value changes the string-to-sign (claim C6) -/

theorem joinSep_cons2 (sep x y : String) (rest : List String) :
    joinSep sep (x :: y :: rest) = x ++ sep ++ joinSep sep (y :: rest) := rfl

/-- Changing the value bound to one key changes no other lookup. -/
theorem lookup_mid_ne {y k v v' : String} (hyk : y ≠ k) :
    ∀ (A B : List (String × String)),
      List.lookup y (A ++ (k, v) :: B) = List.lookup y (A ++ (k, v') :: B)
  | [], B => by
    rw [List.nil_append, List.nil_append, lookup_cons, lookup_cons,
      if_neg hyk, if_neg hyk]
  | p :: A, B => by
    rcases p with ⟨pk, pv⟩
    rw [List.cons_append, List.cons_append, lookup_cons, lookup_cons]
    split_ifs with h
    · rfl
    · exact lookup_mid_ne hyk A B

/-- Joins of maps that agree everywhere except at one occurring key
differ. -/
theorem joinSep_map_ne {sep : String} (f g : String → String) :
    ∀ (l : List String) (k : String), k ∈ l → l.Nodup →
      (∀ y ∈ l, y ≠ k → f y = g y) → f k ≠ g k →
      joinSep sep (l.map f) ≠ joinSep sep (l.map g)
  | [], k, hk, _, _, _ => by simp at hk
  | [a], k, hk, _, _, hfk => by
    simp at hk
    subst hk
    simpa [joinSep] using hfk
  | a :: b :: t, k, hk, hnd, hagree, hfk => by
    rcases List.mem_cons.mp hk with rfl | hk'
    · have htail : (b :: t).map f = (b :: t).map g := by
        apply List.map_congr_left
        intro y hy
        apply hagree y (by simp [hy])
        intro he
        subst he
        exact (List.nodup_cons.mp hnd).1 hy
      intro heq
      simp only [List.map_cons] at heq
      rw [joinSep_cons2, joinSep_cons2,
        show (f b :: List.map f t) = List.map f (b :: t) from rfl,
        show (g b :: List.map g t) = List.map g (b :: t) from rfl, htail] at heq
      exact hfk (string_append_cancel_right (string_append_cancel_right heq))
    · have hak : a ≠ k := by
        intro he
        subst he
        exact (List.nodup_cons.mp hnd).1 hk'
      intro heq
      simp only [List.map_cons] at heq
      rw [joinSep_cons2, joinSep_cons2,
        show (f b :: List.map f t) = List.map f (b :: t) from rfl,
        show (g b :: List.map g t) = List.map g (b :: t) from rfl,
        hagree a (by simp) hak, String.append_assoc, String.append_assoc] at heq
      have heq2 := string_append_cancel_left (string_append_cancel_left heq)
      exact joinSep_map_ne f g (b :: t) k hk' (List.nodup_cons.mp hnd).2
        (fun y hy hyk => hagree y (by simp [hy]) hyk) hfk heq2

theorem joinSep_single (sep x : String) : joinSep sep [x] = x := rfl

/-- Claim C6 (amended): with fixed credentials, host, endpoint and
timestamp, and all serialized keys pairwise distinct, changing the value
of any single scalar parameter changes the string-to-sign over which the
signature is computed (hence the signature, whenever the keyed digest
maps the two distinct strings to different digests).  The original claim
fails when a later parameter serializes the same key, shadowing the
change; see the counterexample. -/
theorem c6_value_change_changes_string_to_sign (pre suf : List Parameter)
    (k v v' host endpoint : String) (hne : v ≠ v')
    (hnd : (((pre ++ [Parameter.string k v] ++ suf).flatMap
      Parameter.serialize).map Prod.fst).Nodup) :
    getStringToSign (pre ++ [Parameter.string k v] ++ suf) host endpoint ≠
      getStringToSign (pre ++ [Parameter.string k v'] ++ suf) host endpoint := by
  have hflat : ∀ w : String,
      (pre ++ [Parameter.string k w] ++ suf).flatMap Parameter.serialize =
        pre.flatMap Parameter.serialize ++ (k, w) ::
          suf.flatMap Parameter.serialize := by
    intro w
    rw [List.flatMap_append, List.flatMap_append]
    simp [Parameter.serialize]
  have hkeysw : ∀ w : String,
      ((pre ++ [Parameter.string k w] ++ suf).flatMap Parameter.serialize).map
          Prod.fst =
        (pre.flatMap Parameter.serialize).map Prod.fst ++
          k :: (suf.flatMap Parameter.serialize).map Prod.fst := by
    intro w
    rw [hflat w]
    simp
  have hndK : ((pre.flatMap Parameter.serialize).map Prod.fst ++
      k :: (suf.flatMap Parameter.serialize).map Prod.fst).Nodup := by
    rw [← hkeysw v]
    exact hnd
  have hnd' : (((pre ++ [Parameter.string k v'] ++ suf).flatMap
      Parameter.serialize).map Prod.fst).Nodup := by
    rw [hkeysw v']
    exact hndK
  have hmv := canonicalMap_eq_flat _ hnd
  have hmv' := canonicalMap_eq_flat _ hnd'
  rw [getStringToSign_def, getStringToSign_def, hmv, hmv', hflat v, hflat v']
  have hkeq : ((pre.flatMap Parameter.serialize ++ (k, v) ::
      suf.flatMap Parameter.serialize).map Prod.fst) =
      ((pre.flatMap Parameter.serialize ++ (k, v') ::
      suf.flatMap Parameter.serialize).map Prod.fst) := by simp
  rw [hkeq]
  have hmapfst : ((pre.flatMap Parameter.serialize ++ (k, v') ::
      suf.flatMap Parameter.serialize).map Prod.fst) =
      (pre.flatMap Parameter.serialize).map Prod.fst ++
        k :: (suf.flatMap Parameter.serialize).map Prod.fst := by simp
  have hkA : k ∉ (pre.flatMap Parameter.serialize).map Prod.fst := by
    rw [List.nodup_append] at hndK
    intro hmem
    exact hndK.2.2 hmem (by simp)
  intro heq
  rw [joinSep_cons2, joinSep_cons2, joinSep_cons2, joinSep_cons2, joinSep_cons2,
    joinSep_cons2, joinSep_single, joinSep_single] at heq
  have hseg := string_append_cancel_left (string_append_cancel_left
    (string_append_cancel_left heq))
  apply joinSep_map_ne
    (fun kk => kk ++ "=" ++ urlEncode (lookupD (pre.flatMap Parameter.serialize ++
      (k, v) :: suf.flatMap Parameter.serialize) kk))
    (fun kk => kk ++ "=" ++ urlEncode (lookupD (pre.flatMap Parameter.serialize ++
      (k, v') :: suf.flatMap Parameter.serialize) kk))
    (sortKeys ((pre.flatMap Parameter.serialize ++ (k, v') ::
      suf.flatMap Parameter.serialize).map Prod.fst)) k ?_ ?_ ?_ ?_ hseg
  · apply (List.mem_insertionSort jsKeyLe).mpr
    simp
  · apply (List.perm_insertionSort jsKeyLe _).nodup_iff.mpr
    rw [hmapfst]
    exact hndK
  · intro y _ hyk
    show y ++ "=" ++ urlEncode (lookupD (pre.flatMap Parameter.serialize ++
        (k, v) :: suf.flatMap Parameter.serialize) y) =
      y ++ "=" ++ urlEncode (lookupD (pre.flatMap Parameter.serialize ++
        (k, v') :: suf.flatMap Parameter.serialize) y)
    unfold lookupD
    rw [lookup_mid_ne hyk]
  · intro hfkeq
    simp only [] at hfkeq
    have h1 := string_append_cancel_left hfkeq
    have hlv : lookupD (pre.flatMap Parameter.serialize ++ (k, v) ::
        suf.flatMap Parameter.serialize) k = v := by
      unfold lookupD
      rw [lookup_append_of_not_mem hkA, lookup_cons, if_pos rfl]
      rfl
    have hlv' : lookupD (pre.flatMap Parameter.serialize ++ (k, v') ::
        suf.flatMap Parameter.serialize) k = v' := by
      unfold lookupD
      rw [lookup_append_of_not_mem hkA, lookup_cons, if_pos rfl]
      rfl
    rw [hlv, hlv'] at h1
    exact hne (urlEncode_injective h1)

/-- Claim C6 as stated is refuted at this request: both parameters
serialize to the key `A`, the later write wins, so changing the first
parameter's value from `1` to `9` leaves the string-to-sign — and hence
the signature computed from it — unchanged. -/
theorem c6_counterexample :
    ("1" : String) ≠ "9" ∧
    getStringToSign [.string "A" "1", .string "A" "2"] "h" "/e" =
      getStringToSign [.string "A" "9", .string "A" "2"] "h" "/e" ∧
    Request.getSignature (fun _ msg => msg)
        ⟨"/e", ⟨"s", "a", "k", "h"⟩, [.string "A" "1", .string "A" "2"]⟩ =
      Request.getSignature (fun _ msg => msg)
        ⟨"/e", ⟨"s", "a", "k", "h"⟩, [.string "A" "9", .string "A" "2"]⟩ := by
  have hsts : getStringToSign [Parameter.string "A" "1", Parameter.string "A" "2"]
      "h" "/e" =
      getStringToSign [Parameter.string "A" "9", Parameter.string "A" "2"]
      "h" "/e" := by decide
  refine ⟨by decide, hsts, ?_⟩
  rw [getSignature_def, getSignature_def]
  show String.mk (padMod4 (hexStrToBase64 (getStringToSign
    [Parameter.string "A" "1", Parameter.string "A" "2"] "h" "/e").data)) = _
  rw [hsts]

/-- Witness for C6 at a concrete value change with distinct keys. -/
theorem c6_value_change_witness :
    getStringToSign [Parameter.string "B" "1", Parameter.string "A" "x"] "h" "/e" ≠
      getStringToSign [Parameter.string "B" "2", Parameter.string "A" "x"] "h" "/e" :=
  c6_value_change_changes_string_to_sign [] [Parameter.string "A" "x"]
    "B" "1" "2" "h" "/e" (by decide) (by decide)

end Mws
